import Mathlib

/-!
Verification of the cyph transfer-ingestion / volume-aggregation pipeline.

The JavaScript/TypeScript sources are shallowly embedded:

* calendar dates (the `'yyyy-MM-dd'` keys used throughout the pipeline)
  become a `Date` structure of year/month/day numbers; two dates are equal
  exactly when their formatted `yyyy-MM-dd` strings are equal, and JS
  `Date` timestamp comparison on such day-resolution values coincides with
  lexicographic year/month/day order, embedded here through `Date.rank`;
  the embedding works in UTC (local time = UTC), matching the deployment
  assumption of the scripts.
* JS numbers holding USD volumes become `ℚ` (ideal arithmetic; every
  equality proved exactly therefore holds within any floating tolerance);
* JS `Map` objects become insertion-ordered association lists with the
  `has`/`get`/`set` operations of the source;
* network calls become oracle functions returning `Except`/`Option`,
  `throw` becomes `Except.error`, and fallible code is modelled by the
  corresponding total function on those oracles.
-/

/-- A calendar day, the `yyyy-MM-dd` unit of the pipeline. -/
structure Date where
  year : ℕ
  month : ℕ
  day : ℕ
deriving DecidableEq, Repr

/-- Gregorian leap-year test (`date-fns` / JS `Date` calendar). -/
def isLeapYear (y : ℕ) : Bool :=
  (y % 4 = 0 && y % 100 ≠ 0) || y % 400 = 0

/-- Number of days in a month of the Gregorian calendar. -/
def daysInMonth (y m : ℕ) : ℕ :=
  if m = 2 then (if isLeapYear y then 29 else 28)
  else if m = 4 ∨ m = 6 ∨ m = 9 ∨ m = 11 then 30
  else 31

/-- A structurally valid calendar date. -/
def validDate (d : Date) : Prop :=
  1 ≤ d.month ∧ d.month ≤ 12 ∧ 1 ≤ d.day ∧ d.day ≤ daysInMonth d.year d.month

instance (d : Date) : Decidable (validDate d) := by
  unfold validDate; infer_instance

/-- Numeric key that orders valid dates exactly like JS `Date` timestamps
(lexicographically by year, month, day). -/
def Date.rank (d : Date) : ℕ :=
  372 * d.year + 31 * d.month + d.day

/-- Days since 0000-03-01 (civil-from-days algorithm); used only to obtain
the day of week exactly as JS `Date.prototype.getDay` does. -/
def Date.dayNumber (dt : Date) : ℕ :=
  let y := if dt.month ≤ 2 then dt.year - 1 else dt.year
  let era := y / 400
  let yoe := y % 400
  let mp := (dt.month + 9) % 12
  let doy := (153 * mp + 2) / 5 + dt.day - 1
  let doe := yoe * 365 + yoe / 4 - yoe / 100 + doy
  era * 146097 + doe

/-- JS `getDay`: 0 = Sunday, 1 = Monday, ..., 6 = Saturday. -/
def Date.dayOfWeek (dt : Date) : ℕ :=
  (dt.dayNumber + 3) % 7

/-- The next calendar day (`addDays(date, 1)`). -/
def nextDay (dt : Date) : Date :=
  if dt.day < daysInMonth dt.year dt.month then ⟨dt.year, dt.month, dt.day + 1⟩
  else if dt.month < 12 then ⟨dt.year, dt.month + 1, 1⟩
  else ⟨dt.year + 1, 1, 1⟩

/-- The previous calendar day (JS `setDate(getDate() - 1)` rollover). -/
def prevDay (dt : Date) : Date :=
  if 1 < dt.day then ⟨dt.year, dt.month, dt.day - 1⟩
  else if 1 < dt.month then ⟨dt.year, dt.month - 1, daysInMonth dt.year (dt.month - 1)⟩
  else ⟨dt.year - 1, 12, 31⟩

/-- `addDays(date, n)`. -/
def addDays (dt : Date) (n : ℕ) : Date :=
  nextDay^[n] dt

/-- `subDays(date, n)` (JS `setDate(getDate() - n)` rollover semantics). -/
def subDays (dt : Date) (n : ℕ) : Date :=
  prevDay^[n] dt

/-- `addMonths(date, 1)` of date-fns: advance the month, clamping the day
to the length of the target month. -/
def addMonths1 (dt : Date) : Date :=
  let y := if dt.month = 12 then dt.year + 1 else dt.year
  let m := if dt.month = 12 then 1 else dt.month + 1
  ⟨y, m, min dt.day (daysInMonth y m)⟩

theorem daysInMonth_le_31 (y m : ℕ) : daysInMonth y m ≤ 31 := by
  unfold daysInMonth
  split <;> [split <;> omega; split <;> omega]

theorem daysInMonth_pos (y m : ℕ) : 1 ≤ daysInMonth y m := by
  unfold daysInMonth
  split <;> [split <;> omega; split <;> omega]

theorem validDate_nextDay {d : Date} (h : validDate d) : validDate (nextDay d) := by
  obtain ⟨h1, h2, h3, h4⟩ := h
  have hp1 := daysInMonth_pos d.year (d.month + 1)
  have hp2 := daysInMonth_pos (d.year + 1) 1
  unfold nextDay validDate
  split
  · dsimp only
    omega
  · split <;> dsimp only <;> omega

theorem rank_nextDay_gt {d : Date} (h : validDate d) : d.rank < (nextDay d).rank := by
  obtain ⟨h1, h2, h3, h4⟩ := h
  have h31 := daysInMonth_le_31 d.year d.month
  unfold nextDay Date.rank
  split
  · dsimp only; omega
  · split <;> dsimp only <;> omega

theorem validDate_addMonths1 {d : Date} (h : validDate d) : validDate (addMonths1 d) := by
  obtain ⟨h1, h2, h3, h4⟩ := h
  unfold addMonths1 validDate
  by_cases h12 : d.month = 12
  · have hp := daysInMonth_pos (d.year + 1) 1
    simp only [h12, reduceIte]
    omega
  · have hp := daysInMonth_pos d.year (d.month + 1)
    simp only [if_neg h12]
    omega

theorem rank_addMonths1_gt {d : Date} (h : validDate d) : d.rank < (addMonths1 d).rank := by
  obtain ⟨h1, h2, h3, h4⟩ := h
  have h31 := daysInMonth_le_31 d.year d.month
  unfold addMonths1 Date.rank
  by_cases h12 : d.month = 12
  · have hp := daysInMonth_pos (d.year + 1) 1
    simp only [h12, reduceIte]
    omega
  · have hp := daysInMonth_pos d.year (d.month + 1)
    simp only [if_neg h12]
    omega

/-- On valid dates, lexicographic (year, month, day) order implies `rank`
order: `rank` is a faithful copy of JS timestamp order at day resolution. -/
theorem rank_lt_of_lex {a b : Date} (ha : validDate a) (hb : validDate b)
    (h : a.year < b.year ∨ (a.year = b.year ∧ a.month < b.month) ∨
      (a.year = b.year ∧ a.month = b.month ∧ a.day < b.day)) :
    a.rank < b.rank := by
  obtain ⟨ha1, ha2, ha3, ha4⟩ := ha
  obtain ⟨hb1, hb2, hb3, hb4⟩ := hb
  have := daysInMonth_le_31 a.year a.month
  have := daysInMonth_le_31 b.year b.month
  unfold Date.rank
  omega

theorem lex_of_rank_lt {a b : Date} (ha : validDate a) (hb : validDate b)
    (h : a.rank < b.rank) :
    a.year < b.year ∨ (a.year = b.year ∧ a.month < b.month) ∨
      (a.year = b.year ∧ a.month = b.month ∧ a.day < b.day) := by
  obtain ⟨ha1, ha2, ha3, ha4⟩ := ha
  obtain ⟨hb1, hb2, hb3, hb4⟩ := hb
  have := daysInMonth_le_31 a.year a.month
  have := daysInMonth_le_31 b.year b.month
  unfold Date.rank at h
  omega

/-- `nextDay` is the successor on valid dates: no valid date lies strictly
between a valid date and its `nextDay`. -/
theorem rank_nextDay_le {x z : Date} (hx : validDate x) (hz : validDate z)
    (h : x.rank < z.rank) : (nextDay x).rank ≤ z.rank := by
  have hlex := lex_of_rank_lt hx hz h
  obtain ⟨hx1, hx2, hx3, hx4⟩ := hx
  obtain ⟨hz1, hz2, hz3, hz4⟩ := hz
  have h31x := daysInMonth_le_31 x.year x.month
  have h31z := daysInMonth_le_31 z.year z.month
  rcases hlex with hy | ⟨hy, hm⟩ | ⟨hy, hm, hd⟩
  · unfold nextDay Date.rank
    split
    · dsimp only; omega
    · split <;> dsimp only <;> omega
  · unfold nextDay Date.rank
    split
    · dsimp only; omega
    · split <;> dsimp only <;> omega
  · have hzd : z.day ≤ daysInMonth x.year x.month := by rw [hy, hm]; exact hz4
    unfold nextDay Date.rank
    split
    · dsimp only; omega
    · split <;> dsimp only <;> omega

/-! ## JS `Map` objects keyed by formatted date

The aggregation code accumulates volumes in `Map` objects via the idiom
`if (!map.has(k)) map.set(k, 0); map.set(k, map.get(k) + v)` and finally
converts `map.entries()` to an array. A `Map` is embedded as an
insertion-ordered list of `{date, volume}` buckets. -/

/-- A `{date, volume}` object of the volume pipeline. -/
structure Bucket where
  date : Date
  volume : ℚ
deriving DecidableEq, Repr

/-- JS `map.has(k)`. -/
def mapHas (m : List Bucket) (k : Date) : Bool :=
  m.any (fun b => b.date = k)

/-- JS `map.get(k)`. -/
def mapGet (m : List Bucket) (k : Date) : Option ℚ :=
  (m.find? (fun b => b.date = k)).map (·.volume)

/-- JS `map.set(k, v)`: update in place if the key exists, else append. -/
def mapSet (m : List Bucket) (k : Date) (v : ℚ) : List Bucket :=
  if mapHas m k then m.map (fun b => if b.date = k then ⟨k, v⟩ else b)
  else m ++ [⟨k, v⟩]

/-- The accumulation idiom
`if (!map.has(k)) map.set(k, 0); map.set(k, map.get(k) + v)`. -/
def mapAdd (m : List Bucket) (k : Date) (v : ℚ) : List Bucket :=
  let m1 := if mapHas m k then m else mapSet m k 0
  mapSet m1 k ((mapGet m1 k).getD 0 + v)

/-- The keys of a map, in insertion order. -/
def mapKeys (m : List Bucket) : List Date :=
  m.map (·.date)

theorem mapHas_iff_mem {m : List Bucket} {k : Date} :
    mapHas m k = true ↔ k ∈ mapKeys m := by
  unfold mapHas mapKeys
  rw [List.any_eq_true]
  constructor
  · rintro ⟨b, hb, he⟩
    exact List.mem_map.mpr ⟨b, hb, by simpa using he⟩
  · intro h
    rcases List.mem_map.mp h with ⟨b, hb, he⟩
    exact ⟨b, hb, by simpa using he⟩

theorem mapGet_eq_none_of_not_has {m : List Bucket} {k : Date}
    (h : mapHas m k = false) : mapGet m k = none := by
  unfold mapGet
  rw [List.find?_eq_none.mpr]
  · rfl
  · intro b hb
    simp only [decide_eq_true_eq]
    intro he
    have hmem : mapHas m k = true :=
      mapHas_iff_mem.mpr (List.mem_map.mpr ⟨b, hb, he⟩)
    rw [h] at hmem
    exact Bool.noConfusion hmem

theorem mapGet_map_update_ne {m : List Bucket} {k k2 : Date} {v : ℚ} (hne : k2 ≠ k) :
    mapGet (m.map (fun b => if b.date = k then ⟨k, v⟩ else b)) k2 = mapGet m k2 := by
  induction m with
  | nil => rfl
  | cons b t ih =>
    by_cases hbk : b.date = k
    · have h1 : (if b.date = k then (⟨k, v⟩ : Bucket) else b) = ⟨k, v⟩ := if_pos hbk
      simp only [List.map_cons, h1, mapGet]
      rw [List.find?_cons_of_neg, List.find?_cons_of_neg]
      · exact ih
      · simp only [decide_eq_true_eq]; intro he; exact hne (by rw [← he, hbk])
      · simp only [decide_eq_true_eq]; intro he; exact hne he.symm
    · have h1 : (if b.date = k then (⟨k, v⟩ : Bucket) else b) = b := if_neg hbk
      simp only [List.map_cons, h1, mapGet]
      by_cases hbk2 : b.date = k2
      · rw [List.find?_cons_of_pos, List.find?_cons_of_pos] <;>
          simp [hbk2]
      · rw [List.find?_cons_of_neg, List.find?_cons_of_neg]
        · exact ih
        · simpa using hbk2
        · simpa using hbk2

theorem mapGet_map_update_self {m : List Bucket} {k : Date} {v : ℚ}
    (h : mapHas m k = true) :
    mapGet (m.map (fun b => if b.date = k then ⟨k, v⟩ else b)) k = some v := by
  induction m with
  | nil => simp [mapHas] at h
  | cons b t ih =>
    by_cases hbk : b.date = k
    · have h1 : (if b.date = k then (⟨k, v⟩ : Bucket) else b) = ⟨k, v⟩ := if_pos hbk
      simp only [List.map_cons, h1, mapGet]
      rw [List.find?_cons_of_pos] <;> simp
    · have h1 : (if b.date = k then (⟨k, v⟩ : Bucket) else b) = b := if_neg hbk
      have ht : mapHas t k = true := by
        have h2 : (decide (b.date = k) || mapHas t k) = true := h
        rcases Bool.or_eq_true_iff.mp h2 with h3 | h3
        · exact absurd (of_decide_eq_true h3) hbk
        · exact h3
      simp only [List.map_cons, h1, mapGet]
      rw [List.find?_cons_of_neg]
      · exact ih ht
      · simpa using hbk

/-- JS `map.set` semantics on `map.get`: the written key reads back the
written value and every other key is untouched. -/
theorem mapGet_mapSet (m : List Bucket) (k k2 : Date) (v : ℚ) :
    mapGet (mapSet m k v) k2 = if k2 = k then some v else mapGet m k2 := by
  unfold mapSet
  by_cases hhas : mapHas m k
  · rw [if_pos hhas]
    by_cases hk2 : k2 = k
    · subst hk2
      rw [if_pos rfl]
      exact mapGet_map_update_self hhas
    · rw [if_neg hk2]
      exact mapGet_map_update_ne hk2
  · rw [if_neg hhas]
    by_cases hk2 : k2 = k
    · subst hk2
      rw [if_pos rfl]
      unfold mapGet
      rw [List.find?_append, List.find?_eq_none.mpr, Option.none_or,
        List.find?_cons_of_pos]
      · rfl
      · simp
      · intro b hb
        simp only [decide_eq_true_eq]
        intro he
        have hmem := mapHas_iff_mem.mpr (List.mem_map.mpr ⟨b, hb, he⟩)
        rw [hmem] at hhas
        exact absurd rfl hhas
    · rw [if_neg hk2]
      unfold mapGet
      have hsingle : List.find? (fun b => decide (b.date = k2)) [(⟨k, v⟩ : Bucket)] = none := by
        rw [List.find?_cons_of_neg]
        · rfl
        · simp only [decide_eq_true_eq]
          intro he
          exact hk2 he.symm
      rw [List.find?_append, hsingle, Option.or_none]

theorem mapKeys_mapSet (m : List Bucket) (k : Date) (v : ℚ) :
    mapKeys (mapSet m k v) = if mapHas m k then mapKeys m else mapKeys m ++ [k] := by
  unfold mapSet mapKeys
  split
  · rw [List.map_map]
    apply List.map_congr_left
    intro b _
    by_cases hbk : b.date = k
    · simp [Function.comp, hbk]
    · simp [Function.comp, hbk]
  · simp

theorem mapKeys_mapSet_nodup {m : List Bucket} {k : Date} {v : ℚ}
    (h : (mapKeys m).Nodup) : (mapKeys (mapSet m k v)).Nodup := by
  rw [mapKeys_mapSet]
  by_cases hhas : mapHas m k
  · rw [if_pos hhas]; exact h
  · rw [if_neg hhas, List.nodup_append]
    refine ⟨h, List.nodup_singleton k, ?_⟩
    intro a ha hb
    rw [List.mem_singleton] at hb
    subst hb
    exact hhas (mapHas_iff_mem.mpr ha)

theorem bool_eq_false_of_not {b : Bool} (h : ¬b = true) : b = false := by
  cases b
  · rfl
  · exact absurd rfl h

theorem mapGet_mapAdd (m : List Bucket) (k k2 : Date) (v : ℚ) :
    mapGet (mapAdd m k v) k2 =
      if k2 = k then some ((mapGet m k).getD 0 + v) else mapGet m k2 := by
  unfold mapAdd
  by_cases hhas : mapHas m k
  · rw [if_pos hhas, mapGet_mapSet]
  · have hf := bool_eq_false_of_not hhas
    have hn : mapGet m k = none := mapGet_eq_none_of_not_has hf
    rw [if_neg hhas, mapGet_mapSet]
    by_cases hk2 : k2 = k
    · rw [if_pos hk2, if_pos hk2, mapGet_mapSet, if_pos rfl, hn]
      norm_num
    · rw [if_neg hk2, if_neg hk2, mapGet_mapSet, if_neg hk2]

theorem mapKeys_mapAdd (m : List Bucket) (k : Date) (v : ℚ) :
    mapKeys (mapAdd m k v) = if mapHas m k then mapKeys m else mapKeys m ++ [k] := by
  unfold mapAdd
  by_cases hhas : mapHas m k
  · rw [if_pos hhas, if_pos hhas, mapKeys_mapSet, if_pos hhas]
  · have hhas2 : mapHas (mapSet m k 0) k = true := by
      rw [mapHas_iff_mem, mapKeys_mapSet, if_neg hhas]
      exact List.mem_append_right _ (List.mem_singleton.mpr rfl)
    rw [if_neg hhas, if_neg hhas, mapKeys_mapSet, if_pos hhas2, mapKeys_mapSet, if_neg hhas]

theorem mem_mapKeys_mapAdd {m : List Bucket} {k k2 : Date} {v : ℚ} :
    k2 ∈ mapKeys (mapAdd m k v) ↔ k2 ∈ mapKeys m ∨ k2 = k := by
  rw [mapKeys_mapAdd]
  by_cases hhas : mapHas m k
  · rw [if_pos hhas]
    constructor
    · exact Or.inl
    · rintro (h | h)
      · exact h
      · subst h; exact mapHas_iff_mem.mp hhas
  · rw [if_neg hhas, List.mem_append, List.mem_singleton]

theorem mapKeys_mapAdd_nodup {m : List Bucket} {k : Date} {v : ℚ}
    (h : (mapKeys m).Nodup) : (mapKeys (mapAdd m k v)).Nodup := by
  rw [mapKeys_mapAdd]
  by_cases hhas : mapHas m k
  · rw [if_pos hhas]; exact h
  · rw [if_neg hhas, List.nodup_append]
    refine ⟨h, List.nodup_singleton k, ?_⟩
    intro a ha hb
    rw [List.mem_singleton] at hb
    subst hb
    exact hhas (mapHas_iff_mem.mpr ha)

/-- The accumulation loop `for (x of items) { ... map.set(key, get + vol) }`. -/
def mapAccum (init : List Bucket) (items : List (Date × ℚ)) : List Bucket :=
  items.foldl (fun m p => mapAdd m p.1 p.2) init

/-- Total volume carried by the items whose key is `k`. -/
def keySum (items : List (Date × ℚ)) (k : Date) : ℚ :=
  ((items.filter (fun p => p.1 = k)).map (fun p => p.2)).sum

theorem keySum_nil (k : Date) : keySum [] k = 0 := rfl

theorem keySum_cons (p : Date × ℚ) (t : List (Date × ℚ)) (k : Date) :
    keySum (p :: t) k = (if p.1 = k then p.2 else 0) + keySum t k := by
  unfold keySum
  rw [List.filter_cons]
  by_cases hp : p.1 = k
  · rw [if_pos (by simpa using hp), if_pos hp, List.map_cons, List.sum_cons]
  · rw [if_neg (by simpa using hp), if_neg hp, zero_add]

/-- The accumulated map reads back, at every key, the initial value plus the
total volume of the processed items carrying that key. -/
theorem mapAccum_getD (init : List Bucket) (items : List (Date × ℚ)) (k : Date) :
    (mapGet (mapAccum init items) k).getD 0 = (mapGet init k).getD 0 + keySum items k := by
  induction items generalizing init with
  | nil => simp [mapAccum, keySum_nil]
  | cons p t ih =>
    have hstep : mapAccum init (p :: t) = mapAccum (mapAdd init p.1 p.2) t := rfl
    rw [hstep, ih, mapGet_mapAdd, keySum_cons]
    by_cases hk : k = p.1
    · rw [if_pos hk, if_pos (hk ▸ rfl : p.1 = k)]
      simp only [Option.getD_some]
      subst hk
      ring
    · rw [if_neg hk, if_neg (fun h => hk h.symm), zero_add]

theorem mem_mapKeys_mapAccum {init : List Bucket} {items : List (Date × ℚ)} {k : Date} :
    k ∈ mapKeys (mapAccum init items) ↔ k ∈ mapKeys init ∨ k ∈ items.map (fun p => p.1) := by
  induction items generalizing init with
  | nil => simp [mapAccum]
  | cons p t ih =>
    have hstep : mapAccum init (p :: t) = mapAccum (mapAdd init p.1 p.2) t := rfl
    rw [hstep, ih]
    rw [List.map_cons, List.mem_cons]
    constructor
    · rintro (h | h)
      · rcases mem_mapKeys_mapAdd.mp h with h2 | h2
        · exact Or.inl h2
        · exact Or.inr (Or.inl h2)
      · exact Or.inr (Or.inr h)
    · rintro (h | h | h)
      · exact Or.inl (mem_mapKeys_mapAdd.mpr (Or.inl h))
      · exact Or.inl (mem_mapKeys_mapAdd.mpr (Or.inr h))
      · exact Or.inr h

theorem mapKeys_mapAccum_nodup {init : List Bucket} {items : List (Date × ℚ)}
    (h : (mapKeys init).Nodup) : (mapKeys (mapAccum init items)).Nodup := by
  induction items generalizing init with
  | nil => exact h
  | cons p t ih => exact ih (mapKeys_mapAdd_nodup h)

/-- Loading an array of buckets into a fresh `Map` via `map.set(b.date, b.volume)`;
with duplicate-free keys this reproduces the array itself. -/
def loadBuckets (l : List Bucket) : List Bucket :=
  l.foldl (fun m b => mapSet m b.date b.volume) []

theorem foldl_mapSet_disjoint (l : List Bucket) :
    ∀ m : List Bucket, (mapKeys l).Nodup →
      (∀ a ∈ mapKeys l, mapHas m a = false) →
      l.foldl (fun m b => mapSet m b.date b.volume) m = m ++ l := by
  induction l with
  | nil => intro m _ _; simp
  | cons b t ih =>
    intro m hnd hdisj
    have hbm : mapHas m b.date = false := hdisj b.date (by simp [mapKeys])
    have hset : mapSet m b.date b.volume = m ++ [b] := by
      unfold mapSet
      rw [hbm]
      rfl
    rw [List.foldl_cons, hset]
    have hkeys : mapKeys (b :: t) = b.date :: mapKeys t := rfl
    rw [hkeys] at hnd hdisj
    have hnd2 := List.Nodup.of_cons hnd
    have hbd : b.date ∉ mapKeys t := (List.nodup_cons.mp hnd).1
    have hdisj2 : ∀ a ∈ mapKeys t, mapHas (m ++ [b]) a = false := by
      intro a ha
      have h1 : mapHas m a = false := hdisj a (List.mem_cons_of_mem _ ha)
      have h2 : a ≠ b.date := fun he => hbd (he ▸ ha)
      unfold mapHas at h1 ⊢
      rw [List.any_append, h1, Bool.false_or, List.any_cons, List.any_nil,
        Bool.or_false]
      simp only [decide_eq_false_iff_not]
      exact fun he => h2 he.symm
    rw [ih (m ++ [b]) hnd2 hdisj2, List.append_assoc]
    rfl

theorem loadBuckets_eq_self {l : List Bucket} (h : (mapKeys l).Nodup) :
    loadBuckets l = l := by
  unfold loadBuckets
  rw [foldl_mapSet_disjoint l [] h (fun a _ => rfl)]
  rfl

/-- With duplicate-free keys, `map.get` succeeds exactly on the entries of
the map. -/
theorem mapGet_eq_some_iff_mem {m : List Bucket} (h : (mapKeys m).Nodup)
    (k : Date) (v : ℚ) :
    mapGet m k = some v ↔ (⟨k, v⟩ : Bucket) ∈ m := by
  induction m with
  | nil => simp [mapGet]
  | cons b t ih =>
    have hnd := (List.nodup_cons.mp h).2
    have hbd : b.date ∉ mapKeys t := (List.nodup_cons.mp h).1
    by_cases hbk : b.date = k
    · unfold mapGet
      rw [List.find?_cons_of_pos _ (by simpa using hbk), Option.map_some',
        Option.some_inj, List.mem_cons]
      constructor
      · intro hv
        left
        cases b
        simp only at hbk hv
        rw [hbk, hv]
      · rintro (hb | hmem)
        · rw [← hb]
        · exfalso
          apply hbd
          rw [hbk]
          exact List.mem_map.mpr ⟨⟨k, v⟩, hmem, rfl⟩
    · unfold mapGet
      rw [List.find?_cons_of_neg _ (by simpa using hbk)]
      rw [List.mem_cons]
      constructor
      · intro hg
        exact Or.inr ((ih hnd).mp hg)
      · rintro (hb | hmem)
        · exfalso
          apply hbk
          rw [← hb]
        · exact (ih hnd).mpr hmem

theorem mapGet_eq_none_iff {m : List Bucket} {k : Date} :
    mapGet m k = none ↔ k ∉ mapKeys m := by
  constructor
  · intro hg hmem
    rcases List.mem_map.mp hmem with ⟨b, hb, he⟩
    unfold mapGet at hg
    rw [Option.map_eq_none'] at hg
    have := List.find?_eq_none.mp hg b hb
    simp [he] at this
  · intro hmem
    apply mapGet_eq_none_of_not_has
    apply bool_eq_false_of_not
    intro hh
    exact hmem (mapHas_iff_mem.mp hh)

/-- `map.get` is invariant under permutations of a duplicate-free map; used to
carry lookups across the final `sort` of the aggregation routines. -/
theorem mapGet_perm {m m2 : List Bucket} (h : (mapKeys m).Nodup)
    (hp : m.Perm m2) (k : Date) : mapGet m k = mapGet m2 k := by
  have hpk : (mapKeys m).Perm (mapKeys m2) := by
    unfold mapKeys
    exact hp.map (fun b => b.date)
  have h2 : (mapKeys m2).Nodup := hpk.nodup_iff.mp h
  rcases hg : mapGet m k with _ | v
  · rw [mapGet_eq_none_iff] at hg
    symm
    rw [mapGet_eq_none_iff]
    intro hmem
    exact hg (hpk.mem_iff.mpr hmem)
  · symm
    rw [mapGet_eq_some_iff_mem h2]
    exact hp.mem_iff.mp ((mapGet_eq_some_iff_mem h k v).mp hg)

/-! ## The incremental fetch script (`fetchIncrementalTransactions`)

Model of the incremental-refresh module: mock price table, transfer
normalization loop, `updateVolumeCache` with its daily/weekly/monthly
aggregation, and the top-level default export. `from`/`to` become
`sender`/`receiver` (`from` is a Lean keyword); wall-clock instants
(`new Date()`) are an abstract tick `now : ℕ`. -/

/-- Ascending order used by every `sort((a, b) => new Date(a.date) - new Date(b.date))`. -/
def bucketLE (a b : Bucket) : Prop :=
  a.date.rank ≤ b.date.rank

instance : DecidableRel bucketLE :=
  fun a b => Nat.decLe a.date.rank b.date.rank

/-- The stable ascending-by-date sort applied to bucket arrays. -/
def sortBuckets (l : List Bucket) : List Bucket :=
  l.insertionSort bucketLE

/-- Sunday-start week key of `calculateWeeklyData`
(`weekStart.setDate(date.getDate() - date.getDay())`). -/
def weekStartSunday (d : Date) : Date :=
  subDays d d.dayOfWeek

/-- First-of-month key of `calculateMonthlyData`
(`new Date(date.getFullYear(), date.getMonth(), 1)`). -/
def monthStart (d : Date) : Date :=
  ⟨d.year, d.month, 1⟩

/-- `calculateWeeklyData(dailyData)`: group daily volumes by Sunday week
start, then sort ascending. -/
def calculateWeeklyData (dailyData : List Bucket) : List Bucket :=
  sortBuckets (mapAccum [] (dailyData.map (fun b => (weekStartSunday b.date, b.volume))))

/-- `calculateMonthlyData(dailyData)`: group daily volumes by first of
month, then sort ascending. -/
def calculateMonthlyData (dailyData : List Bucket) : List Bucket :=
  sortBuckets (mapAccum [] (dailyData.map (fun b => (monthStart b.date, b.volume))))

/-- `getTokenPrice` of the incremental fetch script: static table with
default 1.0 for unknown symbols. -/
def getTokenPrice (symbol : String) : ℚ :=
  if symbol = "USDC" then 1
  else if symbol = "ETH" then 3500
  else if symbol = "WETH" then 3500
  else if symbol = "USDT" then 1
  else if symbol = "DAI" then 1
  else if symbol = "USDbC" then 1
  else 1

/-- A provider transfer record; `metadata` is `some d` exactly when
`transfer.metadata && transfer.metadata.blockTimestamp` holds, `d` being the
calendar date of that block timestamp; `asset` is `null`-able. -/
structure RawTransfer where
  hash : String
  sender : String
  receiver : String
  metadata : Option Date
  value : ℚ
  asset : Option String
  blockNum : ℕ
  category : String
deriving DecidableEq, Repr

/-- The canonical transaction pushed onto `newTransactions`. -/
structure Transaction where
  hash : String
  sender : String
  receiver : String
  txDate : Date
  blockNum : ℕ
  value : ℚ
  asset : String
  valueUSD : ℚ
  category : String
deriving DecidableEq, Repr

/-- One iteration of the transfer-processing loop of
`fetchIncrementalTransactions`: `none` exactly when the `continue` branches
fire (missing timestamp, or calendar year different from the requested
year). -/
def normalizeTransfer (year : ℕ) (t : RawTransfer) : Option Transaction :=
  match t.metadata with
  | none => none
  | some d =>
    if d.year ≠ year then none
    else
      let symbol := t.asset.getD "ETH"
      let price := getTokenPrice symbol
      some
        { hash := t.hash
          sender := t.sender
          receiver := t.receiver
          txDate := d
          blockNum := t.blockNum
          value := t.value
          asset := symbol
          valueUSD := t.value * price
          category := t.category }

/-- One loop-body step: push the normalized transaction, or keep the
accumulator when the transfer is skipped. -/
def pushNormalized (year : ℕ) (acc : List Transaction) (t : RawTransfer) : List Transaction :=
  match normalizeTransfer year t with
  | none => acc
  | some tx => acc ++ [tx]

/-- The `for (const transfer of incomingTransfers.transfers)` loop building
`newTransactions`. -/
def processTransfers (year : ℕ) (transfers : List RawTransfer) : List Transaction :=
  transfers.foldl (pushNormalized year) []

/-- `blockInfo` of the volume cache. -/
structure BlockInfo where
  lastProcessedBlock : ℕ
  processingDate : ℕ
deriving DecidableEq, Repr

/-- The `VolumeCache` JSON persisted per `(wallet, year)` key. -/
structure VolumeCache where
  daily : List Bucket
  weekly : List Bucket
  monthly : List Bucket
  lastUpdated : ℕ
  blockInfo : BlockInfo
deriving DecidableEq, Repr

/-- The daily bucket array the merge starts from: the existing cache's
`daily` array, or `[]` for the fresh skeleton created when no cache exists. -/
def existingDailyOf (existingData : Option VolumeCache) : List Bucket :=
  match existingData with
  | some c => c.daily
  | none => []

/-- `updateVolumeCache(existingData, newTransactions, currentBlock)`: load
the existing daily buckets into a map, add each new transaction's USD value
under its `yyyy-MM-dd` key, sort, recompute weekly/monthly, and stamp the
block info. `now` stands for the `new Date()` calls. -/
def updateVolumeCache (existingData : Option VolumeCache)
    (newTransactions : List Transaction) (currentBlock : ℕ) (now : ℕ) : VolumeCache :=
  let m0 := loadBuckets (existingDailyOf existingData)
  let m1 := mapAccum m0 (newTransactions.map (fun tx => (tx.txDate, tx.valueUSD)))
  let dailyData := sortBuckets m1
  { daily := dailyData
    weekly := calculateWeeklyData dailyData
    monthly := calculateMonthlyData dailyData
    lastUpdated := now
    blockInfo := ⟨currentBlock, now⟩ }

/-- Failure modes surfaced by the incremental refresh. -/
inductive RefreshErr
  | configMissing
  | provider
deriving DecidableEq, Repr

/-- The effectful environment of the incremental fetch: API-key presence,
provider outcomes (after the SDK-level retries), and the cached volume
data (`getData` exceptions are caught in the source, hence an `Option`). -/
structure FetchEnv where
  apiKeyPresent : Bool
  latestBlock : Except Unit ℕ
  assetTransfers : ℕ → ℕ → Except Unit (List RawTransfer)
  cached : Option VolumeCache
  now : ℕ

/-- Resolution of `lastProcessedBlock` and `existingVolumeData` from the
provided parameter (JS truthiness: `0`/`null` fall through to the cache)
or from `volumeCache.blockInfo.lastProcessedBlock`. -/
def resolveLastBlock (provided : Option ℕ) (cached : Option VolumeCache) :
    ℕ × Option VolumeCache :=
  let p := provided.getD 0
  if p ≠ 0 then (p, cached)
  else
    match cached with
    | some c =>
      if c.blockInfo.lastProcessedBlock ≠ 0 then (c.blockInfo.lastProcessedBlock, some c)
      else (0, none)
    | none => (0, none)

/-- The empty-cache skeleton returned on the no-new-blocks path. -/
def emptyVolumeData (lastProcessedBlock now : ℕ) : VolumeCache :=
  ⟨[], [], [], now, ⟨lastProcessedBlock, now⟩⟩

/-- `fetchIncrementalTransactions(walletAddress, year, provided)`: the model
additionally returns the list of block ranges passed to
`getAssetTransfers`, so that theorems can speak about which blocks were
requested. -/
def fetchIncrementalTransactions (env : FetchEnv) (year : ℕ) (provided : Option ℕ) :
    Except RefreshErr (VolumeCache × List (ℕ × ℕ)) :=
  match env.latestBlock with
  | .error _ => .error .provider
  | .ok latestBlock =>
    let currentBlock := latestBlock - 5
    let r := resolveLastBlock provided env.cached
    let lastProcessedBlock := if r.1 = 0 then 24500000 else r.1
    let startBlock := lastProcessedBlock + 1
    if currentBlock ≤ startBlock then
      .ok (r.2.getD (emptyVolumeData lastProcessedBlock env.now), [])
    else
      match env.assetTransfers startBlock currentBlock with
      | .error _ => .error .provider
      | .ok transfers =>
        let newTransactions := processTransfers year transfers
        .ok (updateVolumeCache r.2 newTransactions currentBlock env.now,
          [(startBlock, currentBlock)])

/-- The module's default export: throw on a missing `ALCHEMY_API_KEY`,
otherwise run the incremental fetch and rethrow its errors. -/
def refreshVolume (env : FetchEnv) (year : ℕ) (provided : Option ℕ) :
    Except RefreshErr (VolumeCache × List (ℕ × ℕ)) :=
  if env.apiKeyPresent then fetchIncrementalTransactions env year provided
  else .error .configMissing

theorem pushNormalized_of_none {year : ℕ} {t : RawTransfer} (acc : List Transaction)
    (h : normalizeTransfer year t = none) : pushNormalized year acc t = acc := by
  unfold pushNormalized
  rw [h]

theorem pushNormalized_of_some {year : ℕ} {t : RawTransfer} {tx : Transaction}
    (acc : List Transaction) (h : normalizeTransfer year t = some tx) :
    pushNormalized year acc t = acc ++ [tx] := by
  unfold pushNormalized
  rw [h]

theorem foldl_pushNormalized (year : ℕ) (l : List RawTransfer) :
    ∀ acc : List Transaction,
      l.foldl (pushNormalized year) acc = acc ++ l.filterMap (normalizeTransfer year) := by
  induction l with
  | nil => intro acc; simp
  | cons t ts ih =>
    intro acc
    rw [List.foldl_cons, List.filterMap_cons]
    cases hn : normalizeTransfer year t with
    | none => rw [pushNormalized_of_none acc hn, ih]
    | some tx =>
      rw [pushNormalized_of_some acc hn, ih, List.append_assoc]
      rfl

theorem processTransfers_eq_filterMap (year : ℕ) (transfers : List RawTransfer) :
    processTransfers year transfers = transfers.filterMap (normalizeTransfer year) := by
  unfold processTransfers
  rw [foldl_pushNormalized]
  rfl

theorem keySum_map_key (key : Date → Date) (l : List Bucket) (k : Date) :
    keySum (l.map (fun x => (key x.date, x.volume))) k =
      ((l.filter (fun x => key x.date = k)).map (fun x => x.volume)).sum := by
  induction l with
  | nil => rfl
  | cons b t ih =>
    rw [List.map_cons, keySum_cons, List.filter_cons]
    by_cases hk : key b.date = k
    · simp [hk, ih]
    · simp [hk, ih]

theorem calcGroup_mem (key : Date → Date) (daily : List Bucket) (b : Bucket)
    (hb : b ∈ sortBuckets (mapAccum [] (daily.map (fun x => (key x.date, x.volume))))) :
    b.volume = ((daily.filter (fun x => key x.date = b.date)).map (fun x => x.volume)).sum := by
  have hperm : (sortBuckets (mapAccum [] (daily.map (fun x => (key x.date, x.volume))))).Perm
      (mapAccum [] (daily.map (fun x => (key x.date, x.volume)))) :=
    List.perm_insertionSort _ _
  have hmem : b ∈ mapAccum [] (daily.map (fun x => (key x.date, x.volume))) :=
    hperm.mem_iff.mp hb
  have hnd : (mapKeys (mapAccum [] (daily.map (fun x => (key x.date, x.volume))))).Nodup :=
    mapKeys_mapAccum_nodup List.nodup_nil
  have hget : mapGet (mapAccum [] (daily.map (fun x => (key x.date, x.volume)))) b.date =
      some b.volume :=
    (mapGet_eq_some_iff_mem hnd b.date b.volume).mpr hmem
  have hsum := mapAccum_getD [] (daily.map (fun x => (key x.date, x.volume))) b.date
  rw [hget] at hsum
  rw [keySum_map_key] at hsum
  simpa [mapGet] using hsum

/-- C7: in every volume cache produced by the aggregator, the volume of a
monthly bucket equals the sum of the volumes of the daily buckets whose
dates fall in that calendar month, exactly (hence within any floating-point
tolerance), and each weekly bucket equals the sum of the daily buckets of
the (Sunday-start) week it covers. -/
theorem c7_monthly_weekly_rollup_sums (existingData : Option VolumeCache)
    (newTransactions : List Transaction) (currentBlock now : ℕ) :
    (∀ b ∈ (updateVolumeCache existingData newTransactions currentBlock now).monthly,
      b.volume =
        (((updateVolumeCache existingData newTransactions currentBlock now).daily.filter
            (fun x => monthStart x.date = b.date)).map (fun x => x.volume)).sum) ∧
    (∀ b ∈ (updateVolumeCache existingData newTransactions currentBlock now).weekly,
      b.volume =
        (((updateVolumeCache existingData newTransactions currentBlock now).daily.filter
            (fun x => weekStartSunday x.date = b.date)).map (fun x => x.volume)).sum) := by
  constructor
  · intro b hb
    exact calcGroup_mem monthStart _ b hb
  · intro b hb
    exact calcGroup_mem weekStartSunday _ b hb

/-- The `lastProcessedBlock` a run works from: the resolved value, or the
default start block `24500000` when nothing was resolved. -/
def effectiveLastBlock (provided : Option ℕ) (cached : Option VolumeCache) : ℕ :=
  if (resolveLastBlock provided cached).1 = 0 then 24500000
  else (resolveLastBlock provided cached).1

theorem fetchIncremental_of_blockErr {env : FetchEnv} {year : ℕ} {provided : Option ℕ}
    (h : env.latestBlock = .error ()) :
    fetchIncrementalTransactions env year provided = .error .provider := by
  unfold fetchIncrementalTransactions
  rw [h]

theorem fetchIncremental_of_noNewBlocks {env : FetchEnv} {year : ℕ} {provided : Option ℕ}
    {latest : ℕ} (h : env.latestBlock = .ok latest)
    (hc : latest - 5 ≤ effectiveLastBlock provided env.cached + 1) :
    fetchIncrementalTransactions env year provided =
      .ok ((resolveLastBlock provided env.cached).2.getD
        (emptyVolumeData (effectiveLastBlock provided env.cached) env.now), []) := by
  unfold fetchIncrementalTransactions
  rw [h]
  simp only [effectiveLastBlock] at hc ⊢
  rw [if_pos hc]

theorem fetchIncremental_of_transfersErr {env : FetchEnv} {year : ℕ} {provided : Option ℕ}
    {latest : ℕ} (h : env.latestBlock = .ok latest)
    (hc : ¬ latest - 5 ≤ effectiveLastBlock provided env.cached + 1)
    (ht : env.assetTransfers (effectiveLastBlock provided env.cached + 1) (latest - 5) =
      .error ()) :
    fetchIncrementalTransactions env year provided = .error .provider := by
  unfold fetchIncrementalTransactions
  rw [h]
  simp only [effectiveLastBlock] at hc ht ⊢
  rw [if_neg hc, ht]

theorem fetchIncremental_of_transfersOk {env : FetchEnv} {year : ℕ} {provided : Option ℕ}
    {latest : ℕ} {ts : List RawTransfer} (h : env.latestBlock = .ok latest)
    (hc : ¬ latest - 5 ≤ effectiveLastBlock provided env.cached + 1)
    (ht : env.assetTransfers (effectiveLastBlock provided env.cached + 1) (latest - 5) =
      .ok ts) :
    fetchIncrementalTransactions env year provided =
      .ok (updateVolumeCache (resolveLastBlock provided env.cached).2
          (processTransfers year ts) (latest - 5) env.now,
        [(effectiveLastBlock provided env.cached + 1, latest - 5)]) := by
  unfold fetchIncrementalTransactions
  rw [h]
  simp only [effectiveLastBlock] at hc ht ⊢
  rw [if_neg hc, ht]

/-- C3: the top-level refresh (default export) returns a result exactly when
the API key is present and every provider call it makes succeeds; partial
data issues (transfer contents, prices, cache state) can never make it
throw, and the `configMissing` error occurs precisely on a missing key. -/
theorem c3_refresh_error_characterization (env : FetchEnv) (year : ℕ) (provided : Option ℕ) :
    ((∃ out, refreshVolume env year provided = .ok out) ↔
      env.apiKeyPresent = true ∧
        ∃ latest, env.latestBlock = .ok latest ∧
          (effectiveLastBlock provided env.cached + 1 < latest - 5 →
            ∃ ts, env.assetTransfers (effectiveLastBlock provided env.cached + 1)
              (latest - 5) = .ok ts)) ∧
    (refreshVolume env year provided = .error .configMissing ↔
      env.apiKeyPresent = false) := by
  unfold refreshVolume
  by_cases hkey : env.apiKeyPresent
  · rw [if_pos hkey]
    cases hlb : env.latestBlock with
    | error e =>
      cases e
      rw [fetchIncremental_of_blockErr hlb]
      constructor
      · constructor
        · rintro ⟨out, hout⟩
          exact Except.noConfusion hout
        · rintro ⟨-, latest, hl, -⟩
          exact Except.noConfusion hl
      · constructor
        · intro hcfg
          injection hcfg with he
          exact RefreshErr.noConfusion he
        · intro hfalse
          rw [hkey] at hfalse
          exact Bool.noConfusion hfalse
    | ok latest =>
      by_cases hc : latest - 5 ≤ effectiveLastBlock provided env.cached + 1
      · rw [fetchIncremental_of_noNewBlocks hlb hc]
        constructor
        · constructor
          · intro _
            refine ⟨hkey, latest, rfl, fun hlt => absurd hlt (by omega)⟩
          · intro _
            exact ⟨_, rfl⟩
        · constructor
          · intro hcfg
            exact Except.noConfusion hcfg
          · intro hfalse
            rw [hkey] at hfalse
            exact Bool.noConfusion hfalse
      · cases hts : env.assetTransfers (effectiveLastBlock provided env.cached + 1)
            (latest - 5) with
        | error e =>
          cases e
          rw [fetchIncremental_of_transfersErr hlb hc hts]
          constructor
          · constructor
            · rintro ⟨out, hout⟩
              exact Except.noConfusion hout
            · rintro ⟨-, latest2, hl2, himp⟩
              injection hl2 with he2
              subst he2
              rcases himp (by omega) with ⟨ts, hts2⟩
              rw [hts] at hts2
              exact Except.noConfusion hts2
          · constructor
            · intro hcfg
              injection hcfg with he
              exact RefreshErr.noConfusion he
            · intro hfalse
              rw [hkey] at hfalse
              exact Bool.noConfusion hfalse
        | ok ts =>
          rw [fetchIncremental_of_transfersOk hlb hc hts]
          constructor
          · constructor
            · intro _
              exact ⟨hkey, latest, rfl, fun _ => ⟨ts, hts⟩⟩
            · intro _
              exact ⟨_, rfl⟩
          · constructor
            · intro hcfg
              exact Except.noConfusion hcfg
            · intro hfalse
              rw [hkey] at hfalse
              exact Bool.noConfusion hfalse
  · rw [if_neg hkey]
    have hfalse : env.apiKeyPresent = false := bool_eq_false_of_not hkey
    constructor
    · constructor
      · rintro ⟨out, hout⟩
        exact Except.noConfusion hout
      · rintro ⟨htrue, -⟩
        rw [hfalse] at htrue
        exact Bool.noConfusion htrue
    · constructor
      · intro _
        exact hfalse
      · intro _
        rfl

/-- C9: a transfer lacking a block timestamp, or whose calendar year differs
from the requested year, is silently dropped — it yields no transaction and
the loop keeps processing the remaining transfers — and every other
transfer yields exactly its canonical transaction. -/
theorem c9_normalizer_skip_rules (year : ℕ) (transfers : List RawTransfer) :
    processTransfers year transfers = transfers.filterMap (normalizeTransfer year) ∧
    (∀ t : RawTransfer,
      normalizeTransfer year t = none ↔
        t.metadata = none ∨ ∃ d, t.metadata = some d ∧ d.year ≠ year) ∧
    (∀ (t : RawTransfer) (d : Date), t.metadata = some d → d.year = year →
      normalizeTransfer year t = some
        { hash := t.hash
          sender := t.sender
          receiver := t.receiver
          txDate := d
          blockNum := t.blockNum
          value := t.value
          asset := t.asset.getD "ETH"
          valueUSD := t.value * getTokenPrice (t.asset.getD "ETH")
          category := t.category }) := by
  refine ⟨processTransfers_eq_filterMap year transfers, ?_, ?_⟩
  · intro t
    unfold normalizeTransfer
    cases hm : t.metadata with
    | none => simp
    | some d =>
      by_cases hy : d.year = year
      · simp [hy]
      · simp [hy]
  · intro t d hm hy
    simp [normalizeTransfer, hm, hy]

/-- Sample transfer without a block timestamp. -/
def c9NoTimestamp : RawTransfer :=
  ⟨"0xA", "s", "r", none, 5, none, 1, "erc20"⟩

/-- Sample transfer from the wrong calendar year. -/
def c9WrongYear : RawTransfer :=
  ⟨"0xB", "s", "r", some ⟨2024, 3, 5⟩, 5, some "USDC", 2, "erc20"⟩

/-- Sample well-formed transfer of the requested year. -/
def c9Good : RawTransfer :=
  ⟨"0xC", "s", "r", some ⟨2025, 3, 5⟩, 100, some "USDC", 3, "erc20"⟩

/-- The canonical transaction the sample transfer `c9Good` normalizes to. -/
def c9GoodTx : Transaction :=
  ⟨"0xC", "s", "r", ⟨2025, 3, 5⟩, 3, 100, "USDC", 100, "erc20"⟩

theorem c9_witness :
    normalizeTransfer 2025 c9NoTimestamp = none ∧
    normalizeTransfer 2025 c9WrongYear = none ∧
    processTransfers 2025 [c9NoTimestamp, c9WrongYear, c9Good] = [c9GoodTx] := by
  have h := c9_normalizer_skip_rules 2025 [c9NoTimestamp, c9WrongYear, c9Good]
  have h1 : normalizeTransfer 2025 c9NoTimestamp = none :=
    (h.2.1 c9NoTimestamp).mpr (Or.inl rfl)
  have h2 : normalizeTransfer 2025 c9WrongYear = none :=
    (h.2.1 c9WrongYear).mpr (Or.inr ⟨⟨2024, 3, 5⟩, rfl, by decide⟩)
  have h3 : normalizeTransfer 2025 c9Good = some c9GoodTx := by
    rw [h.2.2 c9Good ⟨2025, 3, 5⟩ rfl rfl]
    simp [c9Good, c9GoodTx, getTokenPrice]
  refine ⟨h1, h2, ?_⟩
  rw [h.1, List.filterMap_cons, h1, List.filterMap_cons, h2, List.filterMap_cons, h3,
    List.filterMap_nil]

/-- C6: the merge stamps `blockInfo.lastProcessedBlock = asOfBlock` and
`lastUpdated = now`, and, at every date key, the resulting daily bucket
carries the pre-existing bucket's volume plus the USD values of the new
transactions of that date — adding into existing buckets and creating
buckets exactly for the new dates, never replacing. -/
theorem c6_merge_adds_into_buckets (existingData : Option VolumeCache)
    (newTransactions : List Transaction) (currentBlock now : ℕ)
    (hnd : (mapKeys (existingDailyOf existingData)).Nodup) :
    (updateVolumeCache existingData newTransactions currentBlock now).blockInfo.lastProcessedBlock
        = currentBlock ∧
    (updateVolumeCache existingData newTransactions currentBlock now).lastUpdated = now ∧
    (∀ d : Date,
      (mapGet (updateVolumeCache existingData newTransactions currentBlock now).daily d).getD 0 =
        (mapGet (existingDailyOf existingData) d).getD 0 +
          keySum (newTransactions.map (fun tx => (tx.txDate, tx.valueUSD))) d) ∧
    (∀ d : Date,
      d ∈ mapKeys (updateVolumeCache existingData newTransactions currentBlock now).daily ↔
        d ∈ mapKeys (existingDailyOf existingData) ∨
          d ∈ newTransactions.map (fun tx => tx.txDate)) := by
  have hdaily : (updateVolumeCache existingData newTransactions currentBlock now).daily =
      sortBuckets (mapAccum (existingDailyOf existingData)
        (newTransactions.map (fun tx => (tx.txDate, tx.valueUSD)))) := by
    unfold updateVolumeCache
    rw [loadBuckets_eq_self hnd]
  have hnd1 : (mapKeys (mapAccum (existingDailyOf existingData)
      (newTransactions.map (fun tx => (tx.txDate, tx.valueUSD))))).Nodup :=
    mapKeys_mapAccum_nodup hnd
  have hperm : (sortBuckets (mapAccum (existingDailyOf existingData)
      (newTransactions.map (fun tx => (tx.txDate, tx.valueUSD))))).Perm
        (mapAccum (existingDailyOf existingData)
          (newTransactions.map (fun tx => (tx.txDate, tx.valueUSD)))) :=
    List.perm_insertionSort _ _
  refine ⟨rfl, rfl, ?_, ?_⟩
  · intro d
    rw [hdaily, ← mapGet_perm hnd1 hperm.symm d, mapAccum_getD]
  · intro d
    have hpk : (mapKeys (sortBuckets (mapAccum (existingDailyOf existingData)
        (newTransactions.map (fun tx => (tx.txDate, tx.valueUSD)))))).Perm
          (mapKeys (mapAccum (existingDailyOf existingData)
            (newTransactions.map (fun tx => (tx.txDate, tx.valueUSD))))) := by
      unfold mapKeys
      exact hperm.map (fun b => b.date)
    have hmapmap : (newTransactions.map (fun tx => (tx.txDate, tx.valueUSD))).map
        (fun p => p.1) = newTransactions.map (fun tx => tx.txDate) := by
      rw [List.map_map]
      rfl
    rw [hdaily, hpk.mem_iff, mem_mapKeys_mapAccum, hmapmap]

/-- Sample existing cache for the C6/C7 witnesses: one daily bucket of 50 on
2025-03-05, recorded through block 10. -/
def c6Cache : VolumeCache :=
  ⟨[⟨⟨2025, 3, 5⟩, 50⟩], [], [], 0, ⟨10, 0⟩⟩

/-- Sample new transaction for the C6/C7 witnesses: 70 USD on 2025-03-05. -/
def c6Tx : Transaction :=
  ⟨"0xD", "s", "r", ⟨2025, 3, 5⟩, 11, 70, "USDC", 70, "erc20"⟩

theorem c6_witness :
    (mapKeys (existingDailyOf (some c6Cache))).Nodup ∧
    (updateVolumeCache (some c6Cache) [c6Tx] 20 3).blockInfo.lastProcessedBlock = 20 ∧
    (updateVolumeCache (some c6Cache) [c6Tx] 20 3).lastUpdated = 3 ∧
    (mapGet (updateVolumeCache (some c6Cache) [c6Tx] 20 3).daily ⟨2025, 3, 5⟩).getD 0 = 120 := by
  have h := c6_merge_adds_into_buckets (some c6Cache) [c6Tx] 20 3 (by decide)
  refine ⟨by decide, h.1, h.2.1, ?_⟩
  rw [h.2.2.1 ⟨2025, 3, 5⟩]
  norm_num [existingDailyOf, c6Cache, c6Tx, mapGet, keySum, List.find?]

theorem c7_witness :
    ∃ b ∈ (updateVolumeCache (some c6Cache) [c6Tx] 20 3).monthly,
      b.volume =
        (((updateVolumeCache (some c6Cache) [c6Tx] 20 3).daily.filter
            (fun x => monthStart x.date = b.date)).map (fun x => x.volume)).sum := by
  have hmem : ∃ b, b ∈ (updateVolumeCache (some c6Cache) [c6Tx] 20 3).monthly := by
    norm_num [updateVolumeCache, existingDailyOf, c6Cache, c6Tx, loadBuckets, mapAccum,
      mapAdd, mapSet, mapGet, mapHas, calculateMonthlyData, calculateWeeklyData,
      sortBuckets, monthStart, weekStartSunday, keySum, List.insertionSort,
      List.orderedInsert, bucketLE]
  rcases hmem with ⟨b, hb⟩
  exact ⟨b, hb, (c7_monthly_weekly_rollup_sums (some c6Cache) [c6Tx] 20 3).1 b hb⟩

/-- Environment of the C3 witness: key present, chain head known, transfers
(including a malformed one) returned successfully. -/
def c3Env : FetchEnv :=
  { apiKeyPresent := true
    latestBlock := .ok 24500100
    assetTransfers := fun _ _ => .ok [c9Good, c9NoTimestamp]
    cached := none
    now := 1 }

theorem c3_witness : ∃ out, refreshVolume c3Env 2025 none = .ok out := by
  have h := c3_refresh_error_characterization c3Env 2025 none
  exact h.1.mpr ⟨rfl, 24500100, rfl, fun _ => ⟨_, rfl⟩⟩

/-- Environment of the C5 counterexample: the caller hands in block 100 and
the chain head is 105, so the buffered head equals 100 and the
no-new-blocks path returns with `lastProcessedBlock` unchanged. -/
def c5Env : FetchEnv :=
  { apiKeyPresent := true
    latestBlock := .ok 105
    assetTransfers := fun _ _ => .ok []
    cached := none
    now := 0 }

/-- C5 counterexample: a successful run of the incremental refresh on which
`blockInfo.lastProcessedBlock` does not strictly increase — with previous
value 100 and chain head 105 the run succeeds (returning the skeleton
cache) and records 100 again. -/
theorem c5_counterexample :
    refreshVolume c5Env 2025 (some 100) = .ok (emptyVolumeData 100 0, []) ∧
    ¬ 100 < (emptyVolumeData 100 0).blockInfo.lastProcessedBlock := by
  constructor
  · rfl
  · decide

/-- C5 amended: relative to the previously recorded `lastProcessedBlock`,
a successful run never decreases it, strictly increases it exactly when a
nonempty block range is available, and every block range the run requests
starts strictly above it (the script has no forced-refresh path at all). -/
theorem c5_last_block_monotone (env : FetchEnv) (year : ℕ) (c : VolumeCache)
    (prev : ℕ) (hprev : 0 < prev) (hcache : env.cached = some c)
    (hrec : c.blockInfo.lastProcessedBlock = prev)
    (cache : VolumeCache) (ranges : List (ℕ × ℕ))
    (hrun : refreshVolume env year none = .ok (cache, ranges)) :
    prev ≤ cache.blockInfo.lastProcessedBlock ∧
    (∀ rg ∈ ranges, prev < rg.1) ∧
    (ranges ≠ [] → prev < cache.blockInfo.lastProcessedBlock) := by
  have hres : resolveLastBlock none env.cached = (prev, some c) := by
    have hne : prev ≠ 0 := by omega
    rw [hcache]
    simp [resolveLastBlock, hrec, hne]
  have heff : effectiveLastBlock none env.cached = prev := by
    unfold effectiveLastBlock
    rw [hres]
    exact if_neg (by omega)
  unfold refreshVolume at hrun
  by_cases hkey : env.apiKeyPresent
  · rw [if_pos hkey] at hrun
    cases hlb : env.latestBlock with
    | error e =>
      cases e
      rw [fetchIncremental_of_blockErr hlb] at hrun
      exact Except.noConfusion hrun
    | ok latest =>
      by_cases hc : latest - 5 ≤ effectiveLastBlock none env.cached + 1
      · rw [fetchIncremental_of_noNewBlocks hlb hc, hres] at hrun
        injection hrun with hpair
        injection hpair with hcc hrr
        subst hrr
        rw [← hcc]
        simp only [Option.getD_some]
        refine ⟨by omega, ?_, ?_⟩
        · intro rg hrg
          exact absurd hrg (List.not_mem_nil rg)
        · intro hne
          exact absurd rfl hne
      · cases hts : env.assetTransfers (effectiveLastBlock none env.cached + 1)
            (latest - 5) with
        | error e =>
          cases e
          rw [fetchIncremental_of_transfersErr hlb hc hts] at hrun
          exact Except.noConfusion hrun
        | ok ts =>
          rw [fetchIncremental_of_transfersOk hlb hc hts] at hrun
          injection hrun with hpair
          injection hpair with hcc hrr
          subst hrr
          rw [← hcc]
          rw [heff] at hc
          refine ⟨by simp [updateVolumeCache]; omega, ?_, ?_⟩
          · intro rg hrg
            rw [heff] at hrg
            rcases List.mem_singleton.mp hrg with h
            rw [h]
            omega
          · intro _
            simp [updateVolumeCache]
            omega
  · rw [if_neg hkey] at hrun
    exact Except.noConfusion hrun

/-- Cache for the C5 witness, recording block 100. -/
def c5WCache : VolumeCache := emptyVolumeData 100 0

/-- Environment for the C5 witness: cache at block 100, chain head 200. -/
def c5WEnv : FetchEnv :=
  { apiKeyPresent := true
    latestBlock := .ok 200
    assetTransfers := fun _ _ => .ok []
    cached := some c5WCache
    now := 0 }

/-- The cache produced by the C5 witness run. -/
def c5WOut : VolumeCache := updateVolumeCache (some c5WCache) [] 195 0

theorem c5_witness :
    100 ≤ c5WOut.blockInfo.lastProcessedBlock ∧
    (∀ rg ∈ ([(101, 195)] : List (ℕ × ℕ)), 100 < rg.1) ∧
    (([(101, 195)] : List (ℕ × ℕ)) ≠ [] → 100 < c5WOut.blockInfo.lastProcessedBlock) :=
  c5_last_block_monotone c5WEnv 2025 c5WCache 100 (by decide) rfl rfl c5WOut
    [(101, 195)] (by rfl)

/-! ## The frontend gap filler (`fillMissingDates` of dataProcessing.ts) -/

theorem rank_inj {a b : Date} (ha : validDate a) (hb : validDate b)
    (h : a.rank = b.rank) : a = b := by
  rcases Nat.lt_trichotomy a.year b.year with hy | hy | hy
  · have := rank_lt_of_lex ha hb (Or.inl hy)
    omega
  · rcases Nat.lt_trichotomy a.month b.month with hm | hm | hm
    · have := rank_lt_of_lex ha hb (Or.inr (Or.inl ⟨hy, hm⟩))
      omega
    · rcases Nat.lt_trichotomy a.day b.day with hd | hd | hd
      · have := rank_lt_of_lex ha hb (Or.inr (Or.inr ⟨hy, hm, hd⟩))
        omega
      · cases a
        cases b
        simp only at hy hm hd
        rw [hy, hm, hd]
      · have := rank_lt_of_lex hb ha (Or.inr (Or.inr ⟨hy.symm, hm.symm, hd⟩))
        omega
    · have := rank_lt_of_lex hb ha (Or.inr (Or.inl ⟨hy.symm, hm⟩))
      omega
  · have := rank_lt_of_lex hb ha (Or.inl hy)
    omega

theorem validDate_iterate_nextDay {d : Date} (h : validDate d) :
    ∀ n : ℕ, validDate (nextDay^[n] d)
  | 0 => h
  | n + 1 => by
    rw [Function.iterate_succ_apply']
    exact validDate_nextDay (validDate_iterate_nextDay h n)

theorem rank_iterate_nextDay {d : Date} (h : validDate d) :
    ∀ n : ℕ, d.rank + n ≤ (nextDay^[n] d).rank
  | 0 => le_of_eq (Nat.add_zero _)
  | n + 1 => by
    rw [Function.iterate_succ_apply']
    have h1 := rank_iterate_nextDay h n
    have h2 := rank_nextDay_gt (validDate_iterate_nextDay h n)
    omega

/-- The three kinds of `TimePeriod`. -/
inductive Period
  | daily
  | weekly
  | monthly
deriving DecidableEq, Repr

/-- The `addPeriod` step selected by the `switch` statement:
`addDays(date, 1)`, `addWeeks(date, 1)`, or `addMonths(date, 1)`. -/
def stepPeriod : Period → Date → Date
  | .daily, d => addDays d 1
  | .weekly, d => addDays d 7
  | .monthly, d => addMonths1 d

theorem validDate_stepPeriod {d : Date} (h : validDate d) (p : Period) :
    validDate (stepPeriod p d) := by
  cases p with
  | daily => exact validDate_iterate_nextDay h 1
  | weekly => exact validDate_iterate_nextDay h 7
  | monthly => exact validDate_addMonths1 h

theorem rank_stepPeriod_gt {d : Date} (h : validDate d) (p : Period) :
    d.rank < (stepPeriod p d).rank := by
  cases p with
  | daily =>
    have := rank_iterate_nextDay h 1
    simp only [stepPeriod, addDays]
    omega
  | weekly =>
    have := rank_iterate_nextDay h 7
    simp only [stepPeriod, addDays]
    omega
  | monthly => exact rank_addMonths1_gt h

/-- The `while (currentDate <= endDate)` loop of `fillMissingDates`; the
fuel is an upper bound on the iteration count, one unit per emitted
bucket (see `fillLoop_fuel_irrelevant` for why the bound used below is
always enough). -/
def fillLoop (dataMap : List Bucket) (p : Period) (endDate : Date) :
    ℕ → Date → List Bucket
  | 0, _ => []
  | fuel + 1, cur =>
    if cur.rank ≤ endDate.rank then
      ⟨cur, (mapGet dataMap cur).getD 0⟩ ::
        fillLoop dataMap p endDate fuel (stepPeriod p cur)
    else []

/-- `fillMissingDates(data, period, startDate, endDate)`: the input array is
loaded into a `Map` (`new Map(data.map(item => [item.date, item.volume]))`)
and the loop emits, per period instance, the mapped volume or 0
(`dataMap.get(dateKey) || 0`). -/
def fillMissingDates (data : List Bucket) (p : Period) (startDate endDate : Date) :
    List Bucket :=
  fillLoop (loadBuckets data) p endDate (endDate.rank + 1 - startDate.rank) startDate

/-- The period instances the loop walks through, starting at `cur`. -/
def periodInstances (p : Period) (endDate : Date) : ℕ → Date → List Date
  | 0, _ => []
  | fuel + 1, cur =>
    if cur.rank ≤ endDate.rank then
      cur :: periodInstances p endDate fuel (stepPeriod p cur)
    else []

theorem fillLoop_map_date (dm : List Bucket) (p : Period) (e : Date) :
    ∀ (fuel : ℕ) (cur : Date),
      (fillLoop dm p e fuel cur).map (fun b => b.date) = periodInstances p e fuel cur
  | 0, _ => rfl
  | fuel + 1, cur => by
    unfold fillLoop periodInstances
    by_cases hc : cur.rank ≤ e.rank
    · rw [if_pos hc, if_pos hc, List.map_cons,
        fillLoop_map_date dm p e fuel (stepPeriod p cur)]
    · rw [if_neg hc, if_neg hc]
      rfl

theorem periodInstances_props (p : Period) (e : Date) :
    ∀ (fuel : ℕ) (cur : Date), validDate cur →
      (∀ d ∈ periodInstances p e fuel cur,
        cur.rank ≤ d.rank ∧ d.rank ≤ e.rank ∧ validDate d) ∧
      List.Pairwise (fun a b : Date => a.rank < b.rank) (periodInstances p e fuel cur)
  | 0, cur, _ => by
    constructor
    · intro d hd
      exact absurd hd (List.not_mem_nil d)
    · exact List.Pairwise.nil
  | fuel + 1, cur, hcur => by
    unfold periodInstances
    by_cases hc : cur.rank ≤ e.rank
    · rw [if_pos hc]
      have hstep := validDate_stepPeriod hcur p
      have hrank := rank_stepPeriod_gt hcur p
      have ih := periodInstances_props p e fuel (stepPeriod p cur) hstep
      constructor
      · intro d hd
        rcases List.mem_cons.mp hd with hd | hd
        · subst hd
          exact ⟨le_refl _, hc, hcur⟩
        · have hprops := ih.1 d hd
          exact ⟨by omega, hprops.2.1, hprops.2.2⟩
      · rw [List.pairwise_cons]
        refine ⟨?_, ih.2⟩
        intro d hd
        have := (ih.1 d hd).1
        omega
    · rw [if_neg hc]
      constructor
      · intro d hd
        exact absurd hd (List.not_mem_nil d)
      · exact List.Pairwise.nil

theorem periodInstances_daily_complete (e : Date) :
    ∀ (fuel : ℕ) (cur z : Date), validDate cur → validDate z →
      cur.rank ≤ z.rank → z.rank ≤ e.rank → e.rank + 1 - cur.rank ≤ fuel →
      z ∈ periodInstances .daily e fuel cur
  | 0, cur, z, _, _, h1, h2, h3 => by omega
  | fuel + 1, cur, z, hcur, hz, h1, h2, h3 => by
    unfold periodInstances
    rw [if_pos (by omega)]
    by_cases heq : cur.rank = z.rank
    · have hce : cur = z := rank_inj hcur hz heq
      subst hce
      exact List.mem_cons_self _ _
    · have hlt : cur.rank < z.rank := by omega
      have hnext := rank_nextDay_le hcur hz hlt
      have hgt := rank_nextDay_gt hcur
      apply List.mem_cons_of_mem
      have hstep : stepPeriod .daily cur = nextDay cur := by
        simp [stepPeriod, addDays]
      rw [hstep]
      exact periodInstances_daily_complete e fuel (nextDay cur) z
        (validDate_nextDay hcur) hz hnext h2 (by omega)

theorem fillLoop_fuel_irrelevant (dm : List Bucket) (p : Period) (e : Date) :
    ∀ (fuel : ℕ) (cur : Date), validDate cur → e.rank + 1 - cur.rank ≤ fuel →
      fillLoop dm p e fuel cur = fillLoop dm p e (fuel + 1) cur
  | 0, cur, _, hb => by
    unfold fillLoop
    rw [if_neg (by omega)]
  | fuel + 1, cur, hcur, hb => by
    by_cases hc : cur.rank ≤ e.rank
    · have hstep := rank_stepPeriod_gt hcur p
      have ih := fillLoop_fuel_irrelevant dm p e fuel (stepPeriod p cur)
        (validDate_stepPeriod hcur p) (by omega)
      unfold fillLoop
      rw [if_pos hc, if_pos hc]
      rw [ih]
    · unfold fillLoop
      rw [if_neg hc, if_neg hc]

/-- C8: for every bucket array, period kind, and startDate ≤ endDate, the
gap filler's output carries exactly the period instances stepped through
the range, in strictly ascending date order with no duplicate period keys;
for the daily kind every calendar day of the range appears; and filling
daily buckets for 2025-01-01 through 2025-01-31 yields exactly 31 entries. -/
theorem c8_gap_filler_complete (data : List Bucket) (p : Period) (startDate endDate : Date)
    (hs : validDate startDate) (he : validDate endDate)
    (hle : startDate.rank ≤ endDate.rank) :
    (fillMissingDates data p startDate endDate).map (fun b => b.date) =
      periodInstances p endDate (endDate.rank + 1 - startDate.rank) startDate ∧
    List.Pairwise (fun a b : Bucket => a.date.rank < b.date.rank)
      (fillMissingDates data p startDate endDate) ∧
    ((fillMissingDates data p startDate endDate).map (fun b => b.date)).Nodup ∧
    (∀ z : Date, validDate z → startDate.rank ≤ z.rank → z.rank ≤ endDate.rank →
      z ∈ (fillMissingDates data .daily startDate endDate).map (fun b => b.date)) ∧
    (fillMissingDates [] .daily ⟨2025, 1, 1⟩ ⟨2025, 1, 31⟩).length = 31 := by
  have hmap : (fillMissingDates data p startDate endDate).map (fun b => b.date) =
      periodInstances p endDate (endDate.rank + 1 - startDate.rank) startDate :=
    fillLoop_map_date (loadBuckets data) p endDate
      (endDate.rank + 1 - startDate.rank) startDate
  have hprops := periodInstances_props p endDate (endDate.rank + 1 - startDate.rank)
    startDate hs
  refine ⟨hmap, ?_, ?_, ?_, ?_⟩
  · have hpw := hprops.2
    rw [← hmap] at hpw
    have h2 := List.pairwise_map.mp hpw
    exact h2
  · rw [hmap]
    exact List.Pairwise.imp
      (fun h heq => absurd (heq ▸ h) (lt_irrefl _)) hprops.2
  · intro z hz h1 h2
    have hmapd : (fillMissingDates data Period.daily startDate endDate).map
        (fun b => b.date) =
          periodInstances Period.daily endDate (endDate.rank + 1 - startDate.rank)
            startDate :=
      fillLoop_map_date (loadBuckets data) Period.daily endDate
        (endDate.rank + 1 - startDate.rank) startDate
    rw [hmapd]
    exact periodInstances_daily_complete endDate _ startDate z hs hz h1 h2 (le_refl _)
  · decide

theorem c8_witness :
    validDate (⟨2025, 1, 1⟩ : Date) ∧ validDate (⟨2025, 1, 31⟩ : Date) ∧
    (⟨2025, 1, 15⟩ : Date) ∈
      (fillMissingDates [] .daily ⟨2025, 1, 1⟩ ⟨2025, 1, 31⟩).map (fun b => b.date) ∧
    (fillMissingDates [] .daily ⟨2025, 1, 1⟩ ⟨2025, 1, 31⟩).length = 31 := by
  have h := c8_gap_filler_complete [] .daily ⟨2025, 1, 1⟩ ⟨2025, 1, 31⟩
    (by decide) (by decide) (by decide)
  exact ⟨by decide, by decide,
    h.2.2.2.1 ⟨2025, 1, 15⟩ (by decide) (by decide) (by decide), h.2.2.2.2⟩

/-! ## The chunked log fetcher (`getLogsInChunks` of cacheTransactions.js) -/

/-- The error classes the retry logic distinguishes: a too-wide block range
(halve the chunk and retry), an overloaded node (back off and retry), and
anything else. -/
inductive RpcErr
  | rangeTooWide
  | overloaded
  | other
deriving DecidableEq, Repr

/-- A log record; only its identity matters here. -/
abbrev LogRec := ℕ

/-- Oracle for `client.getLogs({fromBlock, toBlock})`: outcome per block
range and per attempt index (attempts restart on every chunk). Block
numbers are `BigInt` in the source, hence `ℤ`. -/
abbrev LogsOracle := ℤ → ℤ → ℕ → Except RpcErr (List LogRec)

/-- The inner `while (retryCount < maxRetries && !success)` loop,
`maxRetries = 3`. The two `ℕ` arguments are the attempts left
(`3 - retryCount`) and the current attempt index; on a too-wide range the
chunk size is halved and the chunk end recomputed; exhausting the attempts
is the `throw` of `if (!success)`. On success: the logs, the chunk end
actually used, and the (possibly halved) chunk size. -/
def getLogsRetry (o : LogsOracle) (curFrom target : ℤ) :
    ℕ → ℕ → ℤ → ℤ → Except Unit (List LogRec × ℤ × ℤ)
  | 0, _, _, _ => .error ()
  | attemptsLeft + 1, attemptIdx, chunkSize, chunkTo =>
    match o curFrom chunkTo attemptIdx with
    | .ok logs => .ok (logs, chunkTo, chunkSize)
    | .error e =>
      match e with
      | .rangeTooWide =>
        getLogsRetry o curFrom target attemptsLeft (attemptIdx + 1) (chunkSize / 2)
          (if curFrom + chunkSize / 2 - 1 > target then target
           else curFrom + chunkSize / 2 - 1)
      | .overloaded =>
        getLogsRetry o curFrom target attemptsLeft (attemptIdx + 1) chunkSize chunkTo
      | .other =>
        if attemptIdx + 1 = 3 then .error ()
        else getLogsRetry o curFrom target attemptsLeft (attemptIdx + 1) chunkSize chunkTo

/-- The outer `while (currentFromBlock <= targetToBlock && chunksProcessed
< maxChunksToProcess)` loop; the fuel is the number of chunks still
allowed. Returns the successfully queried `(from, to)` ranges and the
collected logs. -/
def getLogsChunkedLoop (o : LogsOracle) (target : ℤ) :
    ℕ → ℤ → ℤ → Except Unit (List (ℤ × ℤ) × List LogRec)
  | 0, _, _ => .ok ([], [])
  | fuel + 1, curFrom, chunkSize =>
    if curFrom ≤ target then
      match getLogsRetry o curFrom target 3 0 chunkSize
          (if curFrom + chunkSize - 1 > target then target else curFrom + chunkSize - 1) with
      | .error _ => .error ()
      | .ok (logs, usedTo, cs2) =>
        match getLogsChunkedLoop o target fuel (usedTo + 1) cs2 with
        | .error _ => .error ()
        | .ok (ranges, rest) => .ok ((curFrom, usedTo) :: ranges, logs ++ rest)
    else .ok ([], [])

/-- `getLogsInChunks(client, params, chunkSize = 10000)` with its
`maxChunksToProcess = 100` cap; an error is the
`throw new Error('Failed to fetch logs after maximum retries')`. -/
def getLogsInChunks (o : LogsOracle) (fromBlock toBlock : ℤ) (chunkSize : ℤ) :
    Except Unit (List (ℤ × ℤ) × List LogRec) :=
  getLogsChunkedLoop o toBlock 100 fromBlock chunkSize

/-- The chunk decomposition the loop walks when every RPC call succeeds. -/
def chunkRangesPure (target : ℤ) : ℕ → ℤ → ℤ → List (ℤ × ℤ)
  | 0, _, _ => []
  | fuel + 1, curFrom, chunkSize =>
    if curFrom ≤ target then
      (curFrom,
        if curFrom + chunkSize - 1 > target then target else curFrom + chunkSize - 1) ::
        chunkRangesPure target fuel
          ((if curFrom + chunkSize - 1 > target then target
            else curFrom + chunkSize - 1) + 1) chunkSize
    else []

theorem getLogsChunkedLoop_ok (o : LogsOracle) (target : ℤ)
    (logsFn : ℤ → ℤ → List LogRec) (ho : ∀ f t a, o f t a = .ok (logsFn f t)) :
    ∀ (fuel : ℕ) (curFrom chunkSize : ℤ),
      getLogsChunkedLoop o target fuel curFrom chunkSize =
        .ok (chunkRangesPure target fuel curFrom chunkSize,
          ((chunkRangesPure target fuel curFrom chunkSize).map
            (fun r => logsFn r.1 r.2)).flatten)
  | 0, _, _ => rfl
  | fuel + 1, curFrom, chunkSize => by
    unfold getLogsChunkedLoop chunkRangesPure
    by_cases hc : curFrom ≤ target
    · rw [if_pos hc, if_pos hc]
      have hretry : getLogsRetry o curFrom target 3 0 chunkSize
          (if curFrom + chunkSize - 1 > target then target
           else curFrom + chunkSize - 1) =
          .ok (logsFn curFrom
            (if curFrom + chunkSize - 1 > target then target
             else curFrom + chunkSize - 1),
            (if curFrom + chunkSize - 1 > target then target
             else curFrom + chunkSize - 1), chunkSize) := by
        unfold getLogsRetry
        rw [ho]
      rw [hretry]
      dsimp only
      rw [getLogsChunkedLoop_ok o target logsFn ho fuel _ chunkSize]
      dsimp only
      rw [List.map_cons, List.flatten_cons]
    · rw [if_neg hc, if_neg hc]
      rfl

theorem chunkRangesPure_head (target : ℤ) :
    ∀ (fuel : ℕ) (curFrom chunkSize : ℤ) (r : ℤ × ℤ) (rest : List (ℤ × ℤ)),
      chunkRangesPure target fuel curFrom chunkSize = r :: rest → r.1 = curFrom
  | 0, _, _, _, _ => fun h => List.noConfusion h
  | fuel + 1, curFrom, chunkSize, r, rest => by
    intro h
    unfold chunkRangesPure at h
    by_cases hc : curFrom ≤ target
    · rw [if_pos hc] at h
      injection h with h1 _
      rw [← h1]
    · rw [if_neg hc] at h
      exact List.noConfusion h

theorem chunkRangesPure_bounds (target chunkSize : ℤ) (hcs : 1 ≤ chunkSize) :
    ∀ (fuel : ℕ) (curFrom : ℤ),
      ∀ r ∈ chunkRangesPure target fuel curFrom chunkSize,
        curFrom ≤ r.1 ∧ r.1 ≤ r.2 ∧ r.2 ≤ target ∧ r.2 - r.1 + 1 ≤ chunkSize
  | 0, _ => fun r hr => absurd hr (List.not_mem_nil r)
  | fuel + 1, curFrom => by
    intro r hr
    unfold chunkRangesPure at hr
    by_cases hc : curFrom ≤ target
    · rw [if_pos hc] at hr
      by_cases hclip : curFrom + chunkSize - 1 > target
      · rw [if_pos hclip] at hr
        rcases List.mem_cons.mp hr with hr | hr
        · subst hr
          refine ⟨?_, ?_, ?_, ?_⟩ <;> dsimp only <;> omega
        · have hb := chunkRangesPure_bounds target chunkSize hcs fuel (target + 1) r hr
          exact ⟨by omega, hb.2.1, hb.2.2.1, hb.2.2.2⟩
      · rw [if_neg hclip] at hr
        rcases List.mem_cons.mp hr with hr | hr
        · subst hr
          refine ⟨?_, ?_, ?_, ?_⟩ <;> dsimp only <;> omega
        · have hb := chunkRangesPure_bounds target chunkSize hcs fuel
            (curFrom + chunkSize - 1 + 1) r hr
          exact ⟨by omega, hb.2.1, hb.2.2.1, hb.2.2.2⟩
    · rw [if_neg hc] at hr
      exact absurd hr (List.not_mem_nil r)

theorem chunkRangesPure_pairwise (target chunkSize : ℤ) (hcs : 1 ≤ chunkSize) :
    ∀ (fuel : ℕ) (curFrom : ℤ),
      List.Pairwise (fun r s : ℤ × ℤ => r.2 < s.1)
        (chunkRangesPure target fuel curFrom chunkSize)
  | 0, _ => List.Pairwise.nil
  | fuel + 1, curFrom => by
    unfold chunkRangesPure
    by_cases hc : curFrom ≤ target
    · rw [if_pos hc]
      rw [List.pairwise_cons]
      constructor
      · intro s hs
        have hb := chunkRangesPure_bounds target chunkSize hcs fuel _ s hs
        dsimp only
        omega
      · exact chunkRangesPure_pairwise target chunkSize hcs fuel _
    · rw [if_neg hc]
      exact List.Pairwise.nil

theorem chunkRangesPure_chain (target chunkSize : ℤ) :
    ∀ (fuel : ℕ) (curFrom : ℤ),
      List.Chain' (fun r s : ℤ × ℤ => s.1 = r.2 + 1)
        (chunkRangesPure target fuel curFrom chunkSize)
  | 0, _ => List.chain'_nil
  | fuel + 1, curFrom => by
    unfold chunkRangesPure
    by_cases hc : curFrom ≤ target
    · rw [if_pos hc]
      rw [List.chain'_cons']
      constructor
      · intro s hs
        rcases hrest : chunkRangesPure target fuel
            ((if curFrom + chunkSize - 1 > target then target
              else curFrom + chunkSize - 1) + 1) chunkSize with _ | ⟨r2, rest2⟩
        · rw [hrest] at hs
          exact absurd hs (by simp)
        · rw [hrest] at hs
          rw [List.head?_cons] at hs
          injection hs with hs2
          rw [← hs2]
          exact chunkRangesPure_head target fuel _ chunkSize r2 rest2 hrest
      · exact chunkRangesPure_chain target chunkSize fuel _
    · rw [if_neg hc]
      exact List.chain'_nil

theorem chunkRangesPure_coverage (target chunkSize : ℤ) (hcs : 1 ≤ chunkSize) :
    ∀ (fuel : ℕ) (curFrom b : ℤ),
      (∃ r ∈ chunkRangesPure target fuel curFrom chunkSize, r.1 ≤ b ∧ b ≤ r.2) ↔
        (curFrom ≤ b ∧ b ≤ target ∧ b < curFrom + (fuel : ℤ) * chunkSize)
  | 0, curFrom, b => by
    simp [chunkRangesPure]
    omega
  | fuel + 1, curFrom, b => by
    have hmul : ((fuel + 1 : ℕ) : ℤ) * chunkSize = (fuel : ℤ) * chunkSize + chunkSize := by
      push_cast
      ring
    have hnn : 0 ≤ (fuel : ℤ) * chunkSize :=
      mul_nonneg (Int.natCast_nonneg fuel) (by omega)
    unfold chunkRangesPure
    by_cases hc : curFrom ≤ target
    · rw [if_pos hc]
      by_cases hclip : curFrom + chunkSize - 1 > target
      · rw [if_pos hclip]
        have ih := chunkRangesPure_coverage target chunkSize hcs fuel (target + 1) b
        constructor
        · rintro ⟨r, hr, hb1, hb2⟩
          rcases List.mem_cons.mp hr with hr | hr
          · subst hr
            dsimp only at hb1 hb2
            rw [hmul]
            omega
          · have := ih.mp ⟨r, hr, hb1, hb2⟩
            rw [hmul]
            omega
        · intro hb
          refine ⟨(curFrom, target), List.mem_cons_self _ _, ?_, ?_⟩ <;>
            dsimp only <;> omega
      · rw [if_neg hclip]
        have ih := chunkRangesPure_coverage target chunkSize hcs fuel
          (curFrom + chunkSize - 1 + 1) b
        constructor
        · rintro ⟨r, hr, hb1, hb2⟩
          rcases List.mem_cons.mp hr with hr | hr
          · subst hr
            dsimp only at hb1 hb2
            rw [hmul]
            omega
          · have := ih.mp ⟨r, hr, hb1, hb2⟩
            rw [hmul]
            omega
        · intro hb
          rw [hmul] at hb
          by_cases hin : b ≤ curFrom + chunkSize - 1
          · refine ⟨(curFrom, curFrom + chunkSize - 1), List.mem_cons_self _ _, ?_, ?_⟩ <;>
              dsimp only <;> omega
          · rcases ih.mpr (by omega) with ⟨r, hr, hb1, hb2⟩
            exact ⟨r, List.mem_cons_of_mem _ hr, hb1, hb2⟩
    · rw [if_neg hc]
      constructor
      · rintro ⟨r, hr, -, -⟩
        exact absurd hr (List.not_mem_nil r)
      · intro hb
        omega

/-- An RPC oracle that always succeeds with no logs. -/
def allOkOracle : LogsOracle := fun _ _ _ => .ok []

/-- C1 counterexample: with a fully reliable RPC node, `fromBlock = 0`,
`toBlock = 1000000`, and the default 10000-block chunks, the fetch
succeeds but block 1000000 of the requested closed interval is never
queried: the `maxChunksToProcess = 100` cap stops the loop after the first
100 chunks, so "queries every block of the interval" fails. -/
theorem c1_counterexample :
    ∃ ranges logs, getLogsInChunks allOkOracle 0 1000000 10000 = .ok (ranges, logs) ∧
      ∀ r ∈ ranges, ¬(r.1 ≤ (1000000 : ℤ) ∧ (1000000 : ℤ) ≤ r.2) := by
  refine ⟨chunkRangesPure 1000000 100 0 10000, _,
    getLogsChunkedLoop_ok allOkOracle 1000000 (fun _ _ => []) (fun _ _ _ => rfl)
      100 0 10000, ?_⟩
  intro r hr hcov
  have h := (chunkRangesPure_coverage 1000000 10000 (by norm_num) 100 0 1000000).mp
    ⟨r, hr, hcov.1, hcov.2⟩
  norm_num at h

/-- C1 amended: with a reliable provider and `fromBlock ≤ toBlock`, the
fetch succeeds and its chunks are sequential, contiguous, pairwise
disjoint sub-ranges of `[fromBlock, toBlock]` of at most `chunkSize`
blocks each, starting at `fromBlock`; a block of the interval is queried
(exactly once, by disjointness) if and only if it lies among the first
`100 * chunkSize` blocks — complete coverage of the interval therefore
holds exactly when the interval needs at most `maxChunksToProcess = 100`
chunks — and the returned logs are the concatenation of the per-chunk
results. -/
theorem c1_chunking (o : LogsOracle) (fromBlock toBlock chunkSize : ℤ)
    (logsFn : ℤ → ℤ → List LogRec) (ho : ∀ f t a, o f t a = .ok (logsFn f t))
    (hcs : 1 ≤ chunkSize) (hft : fromBlock ≤ toBlock) :
    ∃ ranges logs, getLogsInChunks o fromBlock toBlock chunkSize = .ok (ranges, logs) ∧
      logs = (ranges.map (fun r => logsFn r.1 r.2)).flatten ∧
      (∀ r ∈ ranges, fromBlock ≤ r.1 ∧ r.1 ≤ r.2 ∧ r.2 ≤ toBlock ∧
        r.2 - r.1 + 1 ≤ chunkSize) ∧
      List.Chain' (fun r s : ℤ × ℤ => s.1 = r.2 + 1) ranges ∧
      List.Pairwise (fun r s : ℤ × ℤ => r.2 < s.1) ranges ∧
      (∀ b : ℤ, (∃ r ∈ ranges, r.1 ≤ b ∧ b ≤ r.2) ↔
        (fromBlock ≤ b ∧ b ≤ toBlock ∧ b < fromBlock + 100 * chunkSize)) := by
  refine ⟨chunkRangesPure toBlock 100 fromBlock chunkSize, _,
    getLogsChunkedLoop_ok o toBlock logsFn ho 100 fromBlock chunkSize, rfl,
    chunkRangesPure_bounds toBlock chunkSize hcs 100 fromBlock,
    chunkRangesPure_chain toBlock chunkSize 100 fromBlock,
    chunkRangesPure_pairwise toBlock chunkSize hcs 100 fromBlock, ?_⟩
  intro b
  have h := chunkRangesPure_coverage toBlock chunkSize hcs 100 fromBlock b
  have hcast : ((100 : ℕ) : ℤ) = (100 : ℤ) := by norm_num
  rw [hcast] at h
  exact h

theorem c1_witness :
    ∃ ranges logs, getLogsInChunks allOkOracle 0 25 10 = .ok (ranges, logs) ∧
      logs = (ranges.map (fun r => (fun _ _ => ([] : List LogRec)) r.1 r.2)).flatten ∧
      (∀ r ∈ ranges, (0 : ℤ) ≤ r.1 ∧ r.1 ≤ r.2 ∧ r.2 ≤ 25 ∧ r.2 - r.1 + 1 ≤ 10) ∧
      List.Chain' (fun r s : ℤ × ℤ => s.1 = r.2 + 1) ranges ∧
      List.Pairwise (fun r s : ℤ × ℤ => r.2 < s.1) ranges ∧
      (∀ b : ℤ, (∃ r ∈ ranges, r.1 ≤ b ∧ b ≤ r.2) ↔
        ((0 : ℤ) ≤ b ∧ b ≤ 25 ∧ b < 0 + 100 * 10)) :=
  c1_chunking allOkOracle 0 25 10 (fun _ _ => []) (fun _ _ _ => rfl)
    (by norm_num) (by norm_num)

/-- An RPC oracle that always fails with a generic error. -/
def failOracle : LogsOracle := fun _ _ _ => .error .other

/-- C2 counterexample: in `getLogsInChunks` — one of the two fetch loops the
claim covers — a sub-range failing all `maxRetries = 3` attempts does not
contribute zero results and let the loop continue: the whole fetch aborts
via `throw new Error('Failed to fetch logs after maximum retries')`. -/
theorem c2_counterexample :
    getLogsInChunks failOracle 0 100 10 = .error () ∧
    ∀ out, getLogsInChunks failOracle 0 100 10 ≠ .ok out := by
  have h1 : getLogsInChunks failOracle 0 100 10 = .error () := rfl
  exact ⟨h1, fun out h => Except.noConfusion (h1.symm.trans h)⟩

/-! ## The per-month pagination loop of `fetchTransactionsWithAlchemy` -/

/-- One page of `getAssetTransfers` results with its continuation key. -/
structure TransfersPage where
  transfers : List ℕ
  pageKey : Option ℕ
deriving DecidableEq, Repr

/-- Outcome oracle for one month chunk's `getAssetTransfers` calls, per
page index and attempt index; `none` is an RPC failure. -/
abbrev MonthOracle := ℕ → ℕ → Option TransfersPage

/-- The month loop's retry block (`maxRetries = 5`): the first success
wins; on exhausting the attempts the result is the empty page
(`transfersResult = { transfers: [] }`) and control falls through. -/
def retryTransfers (o : MonthOracle) (page : ℕ) : ℕ → ℕ → TransfersPage
  | 0, _ => ⟨[], none⟩
  | attemptsLeft + 1, attemptIdx =>
    match o page attemptIdx with
    | some result => result
    | none => retryTransfers o page attemptsLeft (attemptIdx + 1)

/-- The `do { ... } while (pageKey && currentPage < maxPages)` pagination
loop (`maxPages = 5`), concatenating each page's transfers. -/
def fetchMonthPages (o : MonthOracle) : ℕ → ℕ → List ℕ
  | 0, _ => []
  | pagesLeft + 1, page =>
    (retryTransfers o page 5 0).transfers ++
      (match (retryTransfers o page 5 0).pageKey with
       | some _ => fetchMonthPages o pagesLeft (page + 1)
       | none => [])

/-- All transfers one month chunk contributes. -/
def fetchMonthTransfers (o : MonthOracle) : List ℕ :=
  fetchMonthPages o 5 0

/-- The `for (const chunk of monthlyChunks)` loop: every month chunk is
fetched independently and the results are concatenated. -/
def fetchAllMonths (months : List MonthOracle) : List ℕ :=
  (months.map fetchMonthTransfers).flatten

/-- C2 amended: in `fetchTransactionsWithAlchemy`'s month loop, a sub-range
whose fetch fails all 5 attempts contributes zero transfers and the loop
continues with the remaining sub-ranges; `getLogsInChunks`, by contrast,
throws once a chunk exhausts its 3 retries, aborting its whole fetch (see
the C2 counterexample). -/
theorem c2_failed_subrange_degrades (pre post : List MonthOracle) (o : MonthOracle)
    (hfail : ∀ a, a < 5 → o 0 a = none) :
    fetchMonthTransfers o = [] ∧
    fetchAllMonths (pre ++ o :: post) = fetchAllMonths pre ++ fetchAllMonths post := by
  have h0 : retryTransfers o 0 5 0 = ⟨[], none⟩ := by
    have h1 := hfail 0 (by norm_num)
    have h2 := hfail 1 (by norm_num)
    have h3 := hfail 2 (by norm_num)
    have h4 := hfail 3 (by norm_num)
    have h5 := hfail 4 (by norm_num)
    simp [retryTransfers, h1, h2, h3, h4, h5]
  have hm : fetchMonthTransfers o = [] := by
    unfold fetchMonthTransfers fetchMonthPages
    rw [h0]
    rfl
  constructor
  · exact hm
  · unfold fetchAllMonths
    rw [List.map_append, List.map_cons, List.flatten_append, List.flatten_cons, hm,
      List.nil_append]

/-- Month oracle contributing transfer 1. -/
def c2MonthA : MonthOracle := fun _ _ => some ⟨[1], none⟩

/-- Month oracle contributing transfer 2. -/
def c2MonthB : MonthOracle := fun _ _ => some ⟨[2], none⟩

/-- Month oracle that fails every attempt. -/
def c2MonthFail : MonthOracle := fun _ _ => none

theorem c2_witness :
    fetchMonthTransfers c2MonthFail = [] ∧
    fetchAllMonths [c2MonthA, c2MonthFail, c2MonthB] =
      fetchAllMonths [c2MonthA] ++ fetchAllMonths [c2MonthB] :=
  c2_failed_subrange_degrades [c2MonthA] [c2MonthB] c2MonthFail (fun _ _ => rfl)

/-! ## Deduplication and volume aggregation of `fetchTransactionsWithAlchemy` -/

/-- A processed transaction of `fetchTransactionsWithAlchemy`
(`{date, value, token, tokenAmount, direction, blockNumber,
transactionHash}`): `transactionHash` is `none` for a missing/empty hash
(JS falsiness), `directionIn` is `direction === 'in'`. -/
structure TxRecord where
  txDate : Date
  value : ℚ
  token : String
  tokenAmount : ℚ
  directionIn : Bool
  blockNumber : ℕ
  transactionHash : Option String
deriving DecidableEq, Repr

/-- One iteration of the dedup loop:
`if (!tx.transactionHash || seenHashes.has(tx.transactionHash)) continue;
seenHashes.add(tx.transactionHash); uniqueTransactions.push(tx);`. -/
def dedupStep (acc : List TxRecord × List String) (tx : TxRecord) :
    List TxRecord × List String :=
  match tx.transactionHash with
  | none => acc
  | some h => if h ∈ acc.2 then acc else (acc.1 ++ [tx], acc.2 ++ [h])

/-- The dedup pass over `allTransactions`. -/
def dedupTransactions (txs : List TxRecord) : List TxRecord :=
  (txs.foldl dedupStep ([], [])).1

/-- Boolean test for carrying a given hash. -/
def hasHash (hh : String) (tx : TxRecord) : Bool :=
  tx.transactionHash = some hh

/-- The `seen` set tracks exactly the hashes of the accumulated records. -/
def seenSync (acc : List TxRecord) (seen : List String) : Prop :=
  ∀ h : String, h ∈ seen ↔ ∃ tx ∈ acc, tx.transactionHash = some h

theorem seenSync_step {acc : List TxRecord} {seen : List String} {t : TxRecord}
    {h : String} (hs : seenSync acc seen) (ht : t.transactionHash = some h) :
    seenSync (acc ++ [t]) (seen ++ [h]) := by
  intro h2
  rw [List.mem_append, List.mem_singleton]
  constructor
  · rintro (hm | hm)
    · rcases (hs h2).mp hm with ⟨tx, htx, he⟩
      exact ⟨tx, List.mem_append_left _ htx, he⟩
    · subst hm
      exact ⟨t, List.mem_append_right _ (List.mem_singleton.mpr rfl), ht⟩
  · rintro ⟨tx, htx, he⟩
    rcases List.mem_append.mp htx with hm | hm
    · exact Or.inl ((hs h2).mpr ⟨tx, hm, he⟩)
    · rw [List.mem_singleton] at hm
      subst hm
      rw [ht] at he
      injection he with he2
      exact Or.inr he2.symm

theorem find?_isSome_of_seen {acc : List TxRecord} {seen : List String} {h : String}
    (hs : seenSync acc seen) (hm : h ∈ seen) :
    ∃ x, acc.find? (hasHash h) = some x := by
  rcases (hs h).mp hm with ⟨tx, htx, he⟩
  have hsome : (acc.find? (hasHash h)).isSome = true :=
    List.find?_isSome.mpr ⟨tx, htx, by simp [hasHash, he]⟩
  rcases hx : acc.find? (hasHash h) with _ | x
  · rw [hx] at hsome
    exact Bool.noConfusion hsome
  · exact ⟨x, rfl⟩

theorem dedup_find (txs : List TxRecord) :
    ∀ (acc : List TxRecord) (seen : List String), seenSync acc seen →
      ∀ hh : String,
        (txs.foldl dedupStep (acc, seen)).1.find? (hasHash hh) =
          (acc.find? (hasHash hh)).or (txs.find? (hasHash hh)) := by
  induction txs with
  | nil =>
    intro acc seen _ hh
    rw [List.foldl_nil, List.find?_nil, Option.or_none]
  | cons t ts ih =>
    intro acc seen hs hh
    rw [List.foldl_cons]
    cases hth : t.transactionHash with
    | none =>
      have hstep : dedupStep (acc, seen) t = (acc, seen) := by
        unfold dedupStep
        rw [hth]
      rw [hstep, ih acc seen hs hh, List.find?_cons_of_neg _ (by simp [hasHash, hth])]
    | some h =>
      by_cases hmem : h ∈ seen
      · have hstep : dedupStep (acc, seen) t = (acc, seen) := by
          unfold dedupStep
          rw [hth]
          exact if_pos hmem
        rw [hstep, ih acc seen hs hh]
        by_cases hhh : hh = h
        · subst hhh
          rcases find?_isSome_of_seen hs hmem with ⟨x, hx⟩
          rw [hx, Option.or_some, Option.or_some]
        · rw [List.find?_cons_of_neg _ (by simp [hasHash, hth, Ne.symm hhh])]
      · have hstep : dedupStep (acc, seen) t = (acc ++ [t], seen ++ [h]) := by
          unfold dedupStep
          rw [hth]
          exact if_neg hmem
        rw [hstep, ih (acc ++ [t]) (seen ++ [h]) (seenSync_step hs hth) hh,
          List.find?_append]
        by_cases hhh : hh = h
        · subst hhh
          have hnone : acc.find? (hasHash hh) = none := by
            rw [List.find?_eq_none]
            intro x hx hpx
            exact hmem ((hs hh).mpr ⟨x, hx, by simpa [hasHash] using hpx⟩)
          have hsingle : List.find? (hasHash hh) [t] = some t :=
            List.find?_cons_of_pos _ (by simp [hasHash, hth])
          have hcons : List.find? (hasHash hh) (t :: ts) = some t :=
            List.find?_cons_of_pos _ (by simp [hasHash, hth])
          rw [hnone, hsingle, hcons, Option.none_or, Option.or_some]
        · have hpred : ¬ (hasHash hh t = true) := by
            simp only [hasHash, hth, decide_eq_true_eq, Option.some_inj]
            exact fun he => hhh he.symm
          have hsingle : List.find? (hasHash hh) [t] = none := by
            rw [List.find?_cons_of_neg _ hpred]
            rfl
          rw [hsingle, Option.or_none, List.find?_cons_of_neg _ hpred]

theorem dedup_nodup_go (txs : List TxRecord) :
    ∀ (acc : List TxRecord) (seen : List String), seenSync acc seen →
      (acc.filterMap (fun tx => tx.transactionHash)).Nodup →
      (((txs.foldl dedupStep (acc, seen)).1).filterMap
        (fun tx => tx.transactionHash)).Nodup := by
  induction txs with
  | nil =>
    intro acc seen _ hnd
    exact hnd
  | cons t ts ih =>
    intro acc seen hs hnd
    rw [List.foldl_cons]
    cases hth : t.transactionHash with
    | none =>
      have hstep : dedupStep (acc, seen) t = (acc, seen) := by
        unfold dedupStep
        rw [hth]
      rw [hstep]
      exact ih acc seen hs hnd
    | some h =>
      by_cases hmem : h ∈ seen
      · have hstep : dedupStep (acc, seen) t = (acc, seen) := by
          unfold dedupStep
          rw [hth]
          exact if_pos hmem
        rw [hstep]
        exact ih acc seen hs hnd
      · have hstep : dedupStep (acc, seen) t = (acc ++ [t], seen ++ [h]) := by
          unfold dedupStep
          rw [hth]
          exact if_neg hmem
        rw [hstep]
        apply ih (acc ++ [t]) (seen ++ [h]) (seenSync_step hs hth)
        rw [List.filterMap_append]
        rw [List.nodup_append]
        refine ⟨hnd, ?_, ?_⟩
        · simp [hth]
        · intro a ha hb
          simp only [List.filterMap_cons, hth, List.filterMap_nil] at hb
          rw [List.mem_singleton] at hb
          subst hb
          rcases List.mem_filterMap.mp ha with ⟨x, hx, he⟩
          exact hmem ((hs a).mpr ⟨x, hx, he⟩)

/-- `updateVolumeCache` of the Alchemy script aggregates only incoming
transactions (card loads) into `volumeByDay`; the secondary
`tx.value > 0 && tx.to === walletAddress` reclassification can never fire
because the processed records carry no `to` field. -/
def volumeByDay (txs : List TxRecord) : List Bucket :=
  mapAccum []
    ((txs.filter (fun tx => tx.directionIn)).map (fun tx => (tx.txDate, tx.value)))

/-- C4: the dedup pass keeps at most one record per transaction hash, and
for every hash the kept record is the first-seen one; in particular, of
two transfers with the same hash and different values only the first
survives, and the daily volume aggregate counts its value exactly once. -/
theorem c4_dedup_first_seen (txs : List TxRecord) :
    ((dedupTransactions txs).filterMap (fun tx => tx.transactionHash)).Nodup ∧
    (∀ hh : String,
      (dedupTransactions txs).find? (hasHash hh) = txs.find? (hasHash hh)) ∧
    (∀ (t1 t2 : TxRecord) (h : String), t1.transactionHash = some h →
      t2.transactionHash = some h →
      dedupTransactions [t1, t2] = [t1] ∧
      (t1.directionIn = true →
        (mapGet (volumeByDay (dedupTransactions [t1, t2])) t1.txDate).getD 0 =
          t1.value)) := by
  have hsync : seenSync [] [] := by
    intro h
    simp
  refine ⟨dedup_nodup_go txs [] [] hsync (by simp), ?_, ?_⟩
  · intro hh
    have h := dedup_find txs [] [] hsync hh
    rw [List.find?_nil, Option.none_or] at h
    exact h
  · intro t1 t2 h h1 h2
    have hd : dedupTransactions [t1, t2] = [t1] := by
      unfold dedupTransactions
      rw [List.foldl_cons, List.foldl_cons, List.foldl_nil]
      have s1 : dedupStep ([], []) t1 = ([t1], [h]) := by
        unfold dedupStep
        rw [h1]
        simp
      have s2 : dedupStep ([t1], [h]) t2 = ([t1], [h]) := by
        unfold dedupStep
        rw [h2]
        simp
      rw [s1, s2]
    refine ⟨hd, ?_⟩
    intro hdir
    rw [hd]
    unfold volumeByDay
    rw [List.filter_cons, if_pos (by simp [hdir]), List.filter_nil, List.map_cons,
      List.map_nil, mapAccum_getD, keySum_cons, keySum_nil]
    simp [mapGet]

/-- First-seen record of the C4 witness hash. -/
def c4Tx1 : TxRecord := ⟨⟨2025, 3, 5⟩, 100, "USDC", 100, true, 7, some "0xE"⟩

/-- Later record with the same hash but a different value. -/
def c4Tx2 : TxRecord := ⟨⟨2025, 3, 5⟩, 999, "USDC", 999, true, 8, some "0xE"⟩

theorem c4_witness :
    dedupTransactions [c4Tx1, c4Tx2] = [c4Tx1] ∧
    (mapGet (volumeByDay (dedupTransactions [c4Tx1, c4Tx2])) ⟨2025, 3, 5⟩).getD 0 = 100 := by
  have h := (c4_dedup_first_seen [c4Tx1, c4Tx2]).2.2 c4Tx1 c4Tx2 "0xE" rfl rfl
  exact ⟨h.1, h.2 rfl⟩

/-! ## The API-layer weekly gap filler (`fillMissingWeeks` of getVolumeData.js) -/

/-- The in-month week number
`Math.ceil((date.getDate() + new Date(year, month, 1).getDay()) / 7)`. -/
def weekNumOf (d : Date) : ℕ :=
  (d.day + Date.dayOfWeek ⟨d.year, d.month, 1⟩ + 6) / 7

/-- `Math.abs(a - b)` on week numbers. -/
def absDiff (a b : ℕ) : ℕ :=
  max a b - min a b

/-- One step of the `weekBuckets` grouping: push the entry onto its
`YYYY-WW` bucket, creating the bucket if needed. -/
def pushWeekBucket (m : List ((ℕ × ℕ) × List Bucket)) (k : ℕ × ℕ) (w : Bucket) :
    List ((ℕ × ℕ) × List Bucket) :=
  if (m.find? (fun p => p.1 = k)).isSome then
    m.map (fun p => if p.1 = k then (p.1, p.2 ++ [w]) else p)
  else m ++ [(k, [w])]

/-- First pass of `fillMissingWeeks`: group the positive-volume entries by
year and in-month week number (zero or negative volumes are skipped). -/
def weekBucketsOf (weeklyData : List Bucket) : List ((ℕ × ℕ) × List Bucket) :=
  weeklyData.foldl
    (fun m w =>
      if w.volume ≤ 0 then m
      else pushWeekBucket m (w.date.year, weekNumOf w.date) w)
    []

/-- Per-bucket reduction of the second pass: running total of the volumes,
and the representative date (`if (!representativeDate ||
entryDate.getDay() === 2) representativeDate = entry.date`). -/
def weekRepAndTotal (entries : List Bucket) : Option Date × ℚ :=
  entries.foldl
    (fun acc entry =>
      (if acc.1.isNone || entry.date.dayOfWeek = 2 then some entry.date else acc.1,
        acc.2 + entry.volume))
    (none, 0)

/-- Second pass: map each bucket's representative date to its total volume
(with the dead `!representativeDate && entries.length > 0` fallback). -/
def buildWeekMap (buckets : List ((ℕ × ℕ) × List Bucket)) : List Bucket :=
  buckets.foldl
    (fun wm p =>
      let rt := weekRepAndTotal p.2
      let rep : Option Date :=
        match rt.1 with
        | some r => some r
        | none =>
          match p.2 with
          | [] => none
          | e :: _ => some e.date
      match rep with
      | some r => mapSet wm r rt.2
      | none => wm)
    []

/-- `while (currentDate.getDay() !== 2) currentDate.setDate(... + 1)`:
advance to the first Tuesday (at most 6 steps are ever needed). -/
def firstTuesdayFrom : ℕ → Date → Date
  | 0, d => d
  | fuel + 1, d => if d.dayOfWeek = 2 then d else firstTuesdayFrom fuel (nextDay d)

/-- The close-week / month-boundary fallback predicate applied, in
insertion order, to the entries of `weekMap`. -/
def closeOrBoundary (cur : Date) (b : Bucket) : Bool :=
  (decide (cur.year = b.date.year) &&
    decide (absDiff (weekNumOf cur) (weekNumOf b.date) ≤ 1)) ||
  (decide (cur.month ≠ b.date.month) &&
    ((decide (weekNumOf cur ≤ 1) && decide (4 ≤ weekNumOf b.date)) ||
      (decide (4 ≤ weekNumOf cur) && decide (weekNumOf b.date ≤ 1))) &&
    decide (0 < b.volume))

/-- The hardcoded May-2025 matching applied to the original input array. -/
def maySpecial (cur : Date) (w : Bucket) : Bool :=
  decide (w.date.year = 2025) && decide (w.date.month = 5) && decide (0 < w.volume) &&
    ((decide (w.date.day ≤ 14) && decide (cur.day ≤ 14)) ||
      (decide (14 < w.date.day) && decide (14 < cur.day)))

/-- The `while (currentDate <= endDate)` loop of `fillMissingWeeks`: direct
`weekMap` lookup, else first entry inside `[cur, cur + 6]`, else the first
close-week / month-boundary entry, else 0; then the May-2025 override; one
bucket is pushed per Tuesday, stepping 7 days. -/
def fillWeeksLoop (wm weeklyData : List Bucket) (endDate : Date) :
    ℕ → Date → List Bucket
  | 0, _ => []
  | fuel + 1, cur =>
    if cur.rank ≤ endDate.rank then
      let v1 : ℚ :=
        match mapGet wm cur with
        | some v => v
        | none =>
          match wm.find? (fun b =>
              decide (cur.rank ≤ b.date.rank) &&
                decide (b.date.rank ≤ (addDays cur 6).rank)) with
          | some b => b.volume
          | none =>
            match wm.find? (closeOrBoundary cur) with
            | some b => b.volume
            | none => 0
      let v2 : ℚ :=
        if cur.year = 2025 ∧ cur.month = 5 then
          match weeklyData.find? (maySpecial cur) with
          | some w => w.volume
          | none => v1
        else v1
      ⟨cur, v2⟩ :: fillWeeksLoop wm weeklyData endDate fuel (addDays cur 7)
    else []

/-- `fillMissingWeeks(weeklyData, startDate, endDate)`. -/
def fillMissingWeeksAPI (weeklyData : List Bucket) (startDate endDate : Date) :
    List Bucket :=
  let wm := buildWeekMap (weekBucketsOf weeklyData)
  let start := firstTuesdayFrom 7 startDate
  sortBuckets (fillWeeksLoop wm weeklyData endDate (endDate.rank + 1 - start.rank) start)

/-- Input of the C10 scenario: a single week bucket of volume 100 dated
Tuesday 2025-01-07. -/
def c10Input : List Bucket := [⟨⟨2025, 1, 7⟩, 100⟩]

/-- C10: the API-layer weekly gap filler copies the volume of one input
week bucket into two output weeks — 2025-01-07 by direct match and
2025-01-14 through the ±1 week-number fallback — so the summed output
volume (200) exceeds the summed input volume (100). -/
theorem c10_fallback_duplicates_volume :
    fillMissingWeeksAPI c10Input ⟨2025, 1, 1⟩ ⟨2025, 1, 14⟩ =
      [⟨⟨2025, 1, 7⟩, 100⟩, ⟨⟨2025, 1, 14⟩, 100⟩] ∧
    ((fillMissingWeeksAPI c10Input ⟨2025, 1, 1⟩ ⟨2025, 1, 14⟩).map
        (fun b => b.volume)).sum >
      (c10Input.map (fun b => b.volume)).sum := by
  have h : fillMissingWeeksAPI c10Input ⟨2025, 1, 1⟩ ⟨2025, 1, 14⟩ =
      [⟨⟨2025, 1, 7⟩, 100⟩, ⟨⟨2025, 1, 14⟩, 100⟩] := by
    norm_num [fillMissingWeeksAPI, weekBucketsOf, pushWeekBucket, buildWeekMap,
      weekRepAndTotal, firstTuesdayFrom, fillWeeksLoop, mapGet, mapSet, mapHas,
      weekNumOf, absDiff, closeOrBoundary, maySpecial, sortBuckets,
      List.insertionSort, List.orderedInsert, bucketLE, Date.rank, Date.dayOfWeek,
      Date.dayNumber, addDays, nextDay, daysInMonth, isLeapYear, List.find?]
  refine ⟨h, ?_⟩
  rw [h]
  norm_num [c10Input]
